import Mathlib

/-!
Verification of the connected-components engines of the CC repository.

The development shallowly embeds the C sources:
* the CSR graph representation (`graph.h`, `graph.c`),
* the sequential label-propagation kernel `compute_connected_components`
  (`src/cc.c`),
* the sequential BFS kernel `compute_connected_components_bfs` (`src/cc.c`),
* the label utility `count_unique_labels` (`src/cc.c`),
* the CSR builder core of `load_csr_from_mtx` (`src/graph.c`),
* the worker-pool label-propagation kernel
  `compute_connected_components_pthreads` and its per-vertex
  `relax_vertex_label` step, modelled as a nondeterministically scheduled
  round system,
* the Afforest union-find kernel
  `compute_connected_components_pthreads_afforest`
  (`src/cc_pthreads_afforest.c`), modelled at union/find atomicity.

C `int32_t`/`int64_t` values are modelled as `Int`/`Nat`; all quantities in
the kernels stay far below the 32/64-bit bounds for valid CSR inputs, so no
wrap-around is modelled.  C arrays become Lean lists with `List.set` /
`List.getD` access.
-/

namespace CC

/-- CSR graph (`graph.h`): vertex count `n`, row pointers `row_ptr`
(length `n+1`), column indices `col_idx` (length `m`). -/
structure CSRGraph where
  n : Nat
  row_ptr : List Nat
  col_idx : List Nat
deriving DecidableEq

/-- `row_ptr[i]` with out-of-bounds reads defaulting to `0`. -/
def CSRGraph.rp (G : CSRGraph) (i : Nat) : Nat := G.row_ptr.getD i 0

/-- The adjacency slice of vertex `u`: `col_idx[row_ptr[u] .. row_ptr[u+1])`. -/
def CSRGraph.nbrs (G : CSRGraph) (u : Nat) : List Nat :=
  (G.col_idx.take (G.rp (u + 1))).drop (G.rp u)

/-- Structural well-formedness of a CSR graph, as documented in the data
model: `row_ptr` has length `n+1`, starts at `0`, is monotone, ends at `m`,
and all column indices are in `[0, n)`. -/
def CSRGraph.wf (G : CSRGraph) : Prop :=
  G.row_ptr.length = G.n + 1 ∧
  G.rp 0 = 0 ∧
  (∀ i, i < G.n → G.rp i ≤ G.rp (i + 1)) ∧
  G.rp G.n = G.col_idx.length ∧
  (∀ v ∈ G.col_idx, v < G.n)

instance (G : CSRGraph) : Decidable G.wf := by
  unfold CSRGraph.wf; infer_instance

/-- Symmetric adjacency: every stored edge has its reverse stored. -/
def CSRGraph.symmetric (G : CSRGraph) : Prop :=
  ∀ u, u < G.n → ∀ v ∈ G.nbrs u, u ∈ G.nbrs v

instance (G : CSRGraph) : Decidable G.symmetric := by
  unfold CSRGraph.symmetric; infer_instance

/-- No self-loops: `u` never occurs in its own adjacency slice. -/
def CSRGraph.loopFree (G : CSRGraph) : Prop :=
  ∀ u, u < G.n → u ∉ G.nbrs u

instance (G : CSRGraph) : Decidable G.loopFree := by
  unfold CSRGraph.loopFree; infer_instance

/-- The stored-edge relation: `v` occurs in the adjacency slice of `u`. -/
def CSRGraph.adj (G : CSRGraph) (u v : Nat) : Prop :=
  u < G.n ∧ v ∈ G.nbrs u

/-- Reachability along stored edges (path connectivity). -/
def CSRGraph.reach (G : CSRGraph) : Nat → Nat → Prop :=
  Relation.ReflTransGen G.adj

/-! ### Sequential label propagation (`compute_connected_components`, src/cc.c) -/

/-- The neighbor scan of the relax step: `new_label` starts at the vertex's
own label and takes the minimum over the labels of the adjacency slice. -/
def lpScanMin (labels : List Int) (nbrs : List Nat) (init : Int) : Int :=
  nbrs.foldl (fun acc v => min acc (labels.getD v 0)) init

/-- The neighbor push of the relax step: for each neighbor `v`, if
`labels[v] > new_label` then `labels[v] = new_label`. -/
def lpPush (newLabel : Int) (nbrs : List Nat) (labels : List Int) : List Int :=
  nbrs.foldl (fun l v => if newLabel < l.getD v 0 then l.set v newLabel else l) labels

/-- One in-place relaxation of vertex `u` (the loop body of
`compute_connected_components`, src/cc.c:177-201, identical to
`relax_vertex_label` at union/find-free atomicity): scan the closed
neighborhood for the minimum label; if it improves, store it at `u`, push it
down to all neighbors, and report a change. -/
def lpRelaxVertex (G : CSRGraph) (labels : List Int) (u : Nat) : List Int × Bool :=
  let old_label := labels.getD u 0
  let new_label := lpScanMin labels (G.nbrs u) old_label
  if new_label < old_label then
    (lpPush new_label (G.nbrs u) (labels.set u new_label), true)
  else
    (labels, false)

/-- Relax a sequence of vertices in order, accumulating the change flag.
With `order = List.range n` this is one round of the sequential kernel; with
an arbitrary `order` it is one interleaved round of the worker-pool kernel
(`lp_worker_full_async`) at relax atomicity. -/
def relaxSeq (G : CSRGraph) (labels : List Int) (order : List Nat) : List Int × Bool :=
  order.foldl (fun st u =>
    let r := lpRelaxVertex G st.1 u
    (r.1, st.2 || r.2)) (labels, false)

/-- One full round `for (u = 0; u < n; u++)` of the sequential kernel. -/
def lpPass (G : CSRGraph) (labels : List Int) : List Int × Bool :=
  relaxSeq G labels (List.range G.n)

/-- The `while (1) { ...; if (!changed) break; }` loop, with explicit fuel.
The fuel used by `compute_connected_components` is proven sufficient. -/
def lpLoop (G : CSRGraph) : Nat → List Int → List Int
  | 0, labels => labels
  | fuel + 1, labels =>
    let p := lpPass G labels
    if p.2 then lpLoop G fuel p.1 else p.1

/-- Initial labels `labels[i] = i`. -/
def lpInit (n : Nat) : List Int := (List.range n).map (fun i : Nat => (i : Int))

/-- Termination measure: the sum of the (nonnegative) labels. -/
def lpMeasure (labels : List Int) : Nat := (labels.map Int.toNat).sum

/-- `compute_connected_components` (src/cc.c:162-207): sequential label
propagation with in-place neighbor pushes, run to convergence. -/
def compute_connected_components (G : CSRGraph) : List Int :=
  lpLoop G (lpMeasure (lpInit G.n) + 1) (lpInit G.n)

/-! ### Generic list access lemmas -/

theorem getD_set_self {α : Type} {l : List α} {i : Nat} (h : i < l.length) (a d : α) :
    (l.set i a).getD i d = a := by
  rw [List.getD_eq_getElem _ _ (by simpa using h)]
  simp

theorem getD_set_ne {α : Type} {l : List α} {i j : Nat} (h : i ≠ j) (a d : α) :
    (l.set i a).getD j d = l.getD j d := by
  by_cases hj : j < l.length
  · rw [List.getD_eq_getElem _ _ (by simpa using hj), List.getD_eq_getElem _ _ hj,
      List.getElem_set_ne h]
  · rw [List.getD_eq_default _ _ (by simpa using Nat.le_of_not_lt hj),
      List.getD_eq_default _ _ (Nat.le_of_not_lt hj)]

theorem getD_set_of_ge {α : Type} {l : List α} {i : Nat} (h : l.length ≤ i) (a : α) :
    l.set i a = l :=
  List.set_eq_of_length_le h

/-- All entries nonnegative. -/
def Nonneg (l : List Int) : Prop := ∀ x ∈ l, 0 ≤ x

theorem Nonneg.getD {l : List Int} (h : Nonneg l) (i : Nat) : 0 ≤ l.getD i 0 := by
  by_cases hi : i < l.length
  · rw [List.getD_eq_getElem _ _ hi]
    exact h _ (List.getElem_mem hi)
  · rw [List.getD_eq_default _ _ (Nat.le_of_not_lt hi)]

theorem Nonneg.set {l : List Int} (h : Nonneg l) {a : Int} (ha : 0 ≤ a) (i : Nat) :
    Nonneg (l.set i a) := by
  intro x hx
  rcases List.mem_or_eq_of_mem_set hx with hx' | rfl
  · exact h _ hx'
  · exact ha

/-- Pointwise comparison gives comparison of the `toNat` sums. -/
theorem lpMeasure_le_of_pointwise :
    ∀ {l' l : List Int}, l'.length = l.length →
      (∀ i, l'.getD i 0 ≤ l.getD i 0) → lpMeasure l' ≤ lpMeasure l := by
  intro l' l
  induction l' generalizing l with
  | nil => intro _ _; simp [lpMeasure]
  | cons x xs ih =>
    intro hlen h
    cases l with
    | nil => simp at hlen
    | cons y ys =>
      have h0 : x ≤ y := h 0
      have htail : lpMeasure xs ≤ lpMeasure ys :=
        ih (by simpa using hlen) (fun i => h (i + 1))
      have : x.toNat ≤ y.toNat := Int.toNat_le_toNat h0
      simp only [lpMeasure, List.map_cons, List.sum_cons] at htail ⊢
      omega

theorem lpMeasure_set_lt :
    ∀ {l : List Int} {u : Nat}, u < l.length → ∀ {a : Int}, 0 ≤ a →
      a < l.getD u 0 → lpMeasure (l.set u a) < lpMeasure l := by
  intro l
  induction l with
  | nil => intro u hu; simp at hu
  | cons y ys ih =>
    intro u hu a ha hlt
    cases u with
    | zero =>
      simp only [List.getD_cons_zero] at hlt
      have h1 : a.toNat < y.toNat := by omega
      simp only [List.set_cons_zero, lpMeasure, List.map_cons, List.sum_cons]
      omega
    | succ u =>
      have hu' : u < ys.length := by simpa using hu
      have hlt' : a < ys.getD u 0 := by simpa using hlt
      have := ih hu' ha hlt'
      simp only [List.set_cons_succ, lpMeasure, List.map_cons, List.sum_cons]
      simp only [lpMeasure] at this
      omega

/-! ### Lemmas about the relax step -/

theorem lpScanMin_le_init (labels : List Int) (nbrs : List Nat) (init : Int) :
    lpScanMin labels nbrs init ≤ init := by
  induction nbrs generalizing init with
  | nil => simp [lpScanMin]
  | cons v rest ih =>
    calc lpScanMin labels (v :: rest) init
        = lpScanMin labels rest (min init (labels.getD v 0)) := rfl
      _ ≤ min init (labels.getD v 0) := ih _
      _ ≤ init := min_le_left _ _

theorem lpScanMin_le_mem (labels : List Int) {nbrs : List Nat} {v : Nat}
    (hv : v ∈ nbrs) (init : Int) :
    lpScanMin labels nbrs init ≤ labels.getD v 0 := by
  induction nbrs generalizing init with
  | nil => cases hv
  | cons w rest ih =>
    rcases List.mem_cons.mp hv with rfl | hv'
    · calc lpScanMin labels (v :: rest) init
          = lpScanMin labels rest (min init (labels.getD v 0)) := rfl
        _ ≤ min init (labels.getD v 0) := lpScanMin_le_init _ _ _
        _ ≤ labels.getD v 0 := min_le_right _ _
    · exact ih hv' _

theorem lpScanMin_cases (labels : List Int) (nbrs : List Nat) (init : Int) :
    lpScanMin labels nbrs init = init ∨
      ∃ v ∈ nbrs, lpScanMin labels nbrs init = labels.getD v 0 := by
  induction nbrs generalizing init with
  | nil => exact Or.inl rfl
  | cons w rest ih =>
    have hstep : lpScanMin labels (w :: rest) init
        = lpScanMin labels rest (min init (labels.getD w 0)) := rfl
    rcases ih (min init (labels.getD w 0)) with h | ⟨v, hv, h⟩
    · rcases min_cases init (labels.getD w 0) with ⟨hm, _⟩ | ⟨hm, _⟩
      · exact Or.inl (by rw [hstep, h, hm])
      · exact Or.inr ⟨w, List.mem_cons_self _ _, by rw [hstep, h, hm]⟩
    · exact Or.inr ⟨v, List.mem_cons_of_mem _ hv, by rw [hstep, h]⟩

theorem lpPush_length (newLabel : Int) (nbrs : List Nat) (labels : List Int) :
    (lpPush newLabel nbrs labels).length = labels.length := by
  induction nbrs generalizing labels with
  | nil => rfl
  | cons v rest ih =>
    have hstep : lpPush newLabel (v :: rest) labels
        = lpPush newLabel rest
            (if newLabel < labels.getD v 0 then labels.set v newLabel else labels) := rfl
    rw [hstep, ih]
    split <;> simp

/-- Each entry of a pushed label vector either is unchanged or has been
lowered to the pushed label. -/
theorem lpPush_getD (newLabel : Int) (nbrs : List Nat) (labels : List Int) (i : Nat) :
    (lpPush newLabel nbrs labels).getD i 0 = labels.getD i 0 ∨
      ((lpPush newLabel nbrs labels).getD i 0 = newLabel ∧
        newLabel < labels.getD i 0 ∧ i ∈ nbrs) := by
  induction nbrs generalizing labels with
  | nil => exact Or.inl rfl
  | cons v rest ih =>
    have hstep : lpPush newLabel (v :: rest) labels
        = lpPush newLabel rest
            (if newLabel < labels.getD v 0 then labels.set v newLabel else labels) := rfl
    set l' := if newLabel < labels.getD v 0 then labels.set v newLabel else labels with hl'
    have hstepi : l'.getD i 0 = labels.getD i 0 ∨
        (l'.getD i 0 = newLabel ∧ newLabel < labels.getD i 0 ∧ i = v) := by
      rw [hl']
      split
      · by_cases hiv : i = v
        · subst hiv
          by_cases hlen : i < labels.length
          · exact Or.inr ⟨getD_set_self hlen _ _, by assumption, rfl⟩
          · rw [getD_set_of_ge (Nat.le_of_not_lt hlen)]
            exact Or.inl rfl
        · exact Or.inl (getD_set_ne (fun h => hiv h.symm) _ _)
      · exact Or.inl rfl
    rcases ih l' with h | ⟨h, hlt, hmem⟩
    · rcases hstepi with h' | ⟨h', hlt', rfl⟩
      · exact Or.inl (by rw [hstep, h, h'])
      · exact Or.inr ⟨by rw [hstep, h, h'], hlt', List.mem_cons_self _ _⟩
    · rcases hstepi with h' | ⟨h', hlt', rfl⟩
      · exact Or.inr ⟨by rw [hstep, h], by rw [h'] at hlt; exact hlt,
          List.mem_cons_of_mem _ hmem⟩
      · rw [h'] at hlt
        exact absurd hlt (lt_irrefl _)

theorem lpPush_le (newLabel : Int) (nbrs : List Nat) (labels : List Int) (i : Nat) :
    (lpPush newLabel nbrs labels).getD i 0 ≤ labels.getD i 0 := by
  rcases lpPush_getD newLabel nbrs labels i with h | ⟨h, hlt, _⟩
  · exact le_of_eq h
  · rw [h]; exact le_of_lt hlt

theorem lpPush_nonneg {newLabel : Int} (h : 0 ≤ newLabel) (nbrs : List Nat)
    {labels : List Int} (hl : Nonneg labels) : Nonneg (lpPush newLabel nbrs labels) := by
  induction nbrs generalizing labels with
  | nil => exact hl
  | cons v rest ih =>
    have hstep : lpPush newLabel (v :: rest) labels
        = lpPush newLabel rest
            (if newLabel < labels.getD v 0 then labels.set v newLabel else labels) := rfl
    rw [hstep]
    apply ih
    split
    · exact hl.set h v
    · exact hl

/-! ### Graph lemmas -/

theorem nbrs_mem_col {G : CSRGraph} {u v : Nat} (h : v ∈ G.nbrs u) : v ∈ G.col_idx :=
  List.mem_of_mem_take (List.mem_of_mem_drop h)

theorem nbrs_lt {G : CSRGraph} (hwf : G.wf) {u v : Nat} (h : v ∈ G.nbrs u) : v < G.n :=
  hwf.2.2.2.2 v (nbrs_mem_col h)

theorem nbrs_eq_nil_of_ge (G : CSRGraph) (hwf : G.wf) {u : Nat} (hu : G.n ≤ u) :
    G.nbrs u = [] := by
  have h1 : G.rp (u + 1) = 0 := by
    apply List.getD_eq_default
    rw [hwf.1]; omega
  simp [CSRGraph.nbrs, h1]

theorem reach_lt {G : CSRGraph} (hwf : G.wf) {u w : Nat} (hu : u < G.n)
    (h : G.reach u w) : w < G.n := by
  induction h with
  | refl => exact hu
  | tail _ hadj _ => exact nbrs_lt hwf hadj.2

theorem reach_symm {G : CSRGraph} (hwf : G.wf) (hsym : G.symmetric) {u w : Nat}
    (h : G.reach u w) : G.reach w u := by
  induction h with
  | refl => exact Relation.ReflTransGen.refl
  | tail _ hadj ih =>
    rename_i b c _
    have hc : c < G.n := nbrs_lt hwf hadj.2
    have hb : b ∈ G.nbrs c := hsym b hadj.1 c hadj.2
    exact Relation.ReflTransGen.head ⟨hc, hb⟩ ih

/-! ### Relax-step characterization -/

/-- The candidate label computed by the scan of the relax step. -/
def lpNewLabel (G : CSRGraph) (labels : List Int) (u : Nat) : Int :=
  lpScanMin labels (G.nbrs u) (labels.getD u 0)

theorem lpRelaxVertex_eq (G : CSRGraph) (labels : List Int) (u : Nat) :
    lpRelaxVertex G labels u =
      if lpNewLabel G labels u < labels.getD u 0 then
        (lpPush (lpNewLabel G labels u) (G.nbrs u)
          (labels.set u (lpNewLabel G labels u)), true)
      else (labels, false) := rfl

theorem lpNewLabel_nonneg {G : CSRGraph} {labels : List Int} (h : Nonneg labels)
    (u : Nat) : 0 ≤ lpNewLabel G labels u := by
  rcases lpScanMin_cases labels (G.nbrs u) (labels.getD u 0) with hc | ⟨v, _, hc⟩
  · rw [lpNewLabel, hc]; exact h.getD u
  · rw [lpNewLabel, hc]; exact h.getD v

theorem lpRelaxVertex_false {G : CSRGraph} {labels : List Int} {u : Nat}
    (h : (lpRelaxVertex G labels u).2 = false) :
    (lpRelaxVertex G labels u).1 = labels := by
  rw [lpRelaxVertex_eq] at h ⊢
  by_cases hc : lpNewLabel G labels u < labels.getD u 0
  · rw [if_pos hc] at h; simp at h
  · rw [if_neg hc]

theorem lpRelaxVertex_false_converged {G : CSRGraph} {labels : List Int} {u : Nat}
    (h : (lpRelaxVertex G labels u).2 = false) :
    ∀ v ∈ G.nbrs u, labels.getD u 0 ≤ labels.getD v 0 := by
  intro v hv
  rw [lpRelaxVertex_eq] at h
  split at h
  · simp at h
  · rename_i hc
    calc labels.getD u 0 ≤ lpNewLabel G labels u := not_lt.mp hc
      _ ≤ labels.getD v 0 := lpScanMin_le_mem labels hv _

theorem lpRelaxVertex_false_of_converged {G : CSRGraph} {labels : List Int} {u : Nat}
    (h : ∀ v ∈ G.nbrs u, labels.getD u 0 ≤ labels.getD v 0) :
    lpRelaxVertex G labels u = (labels, false) := by
  rw [lpRelaxVertex_eq]
  have : ¬ lpNewLabel G labels u < labels.getD u 0 := by
    rcases lpScanMin_cases labels (G.nbrs u) (labels.getD u 0) with hc | ⟨v, hv, hc⟩
    · rw [lpNewLabel, hc]; exact lt_irrefl _
    · rw [lpNewLabel, hc]; exact not_lt.mpr (h v hv)
  rw [if_neg this]

theorem lpRelaxVertex_length (G : CSRGraph) (labels : List Int) (u : Nat) :
    (lpRelaxVertex G labels u).1.length = labels.length := by
  rw [lpRelaxVertex_eq]
  split
  · simp [lpPush_length]
  · rfl

theorem lpRelaxVertex_getD (G : CSRGraph) (labels : List Int) (u i : Nat) :
    (lpRelaxVertex G labels u).1.getD i 0 = labels.getD i 0 ∨
      ((lpRelaxVertex G labels u).1.getD i 0 = lpNewLabel G labels u ∧
        lpNewLabel G labels u < labels.getD i 0 ∧ (i = u ∨ i ∈ G.nbrs u)) := by
  rw [lpRelaxVertex_eq]
  split
  · rename_i hc
    set w := lpNewLabel G labels u with hw
    rcases lpPush_getD w (G.nbrs u) (labels.set u w) i with h | ⟨h, hlt, hmem⟩
    · by_cases hiu : i = u
      · subst hiu
        by_cases hlen : i < labels.length
        · rw [getD_set_self hlen] at h
          exact Or.inr ⟨h, hc, Or.inl rfl⟩
        · have h2 : (labels.set i w).getD i 0 = labels.getD i 0 := by
            rw [getD_set_of_ge (Nat.le_of_not_lt hlen)]
          rw [h2] at h
          exact Or.inl h
      · rw [getD_set_ne (fun he => hiu he.symm)] at h
        exact Or.inl h
    · by_cases hiu : i = u
      · subst hiu
        by_cases hlen : i < labels.length
        · rw [getD_set_self hlen] at hlt
          exact absurd hlt (lt_irrefl _)
        · have h2 : (labels.set i w).getD i 0 = labels.getD i 0 := by
            rw [getD_set_of_ge (Nat.le_of_not_lt hlen)]
          rw [h2] at hlt
          exact Or.inr ⟨h, hlt, Or.inl rfl⟩
      · rw [getD_set_ne (fun he => hiu he.symm)] at hlt
        exact Or.inr ⟨h, hlt, Or.inr hmem⟩
  · exact Or.inl rfl

theorem lpRelaxVertex_le (G : CSRGraph) (labels : List Int) (u i : Nat) :
    (lpRelaxVertex G labels u).1.getD i 0 ≤ labels.getD i 0 := by
  rcases lpRelaxVertex_getD G labels u i with h | ⟨h, hlt, _⟩
  · exact le_of_eq h
  · rw [h]; exact le_of_lt hlt

theorem lpRelaxVertex_nonneg {G : CSRGraph} {labels : List Int} (h : Nonneg labels)
    (u : Nat) : Nonneg (lpRelaxVertex G labels u).1 := by
  rw [lpRelaxVertex_eq]
  split
  · exact lpPush_nonneg (lpNewLabel_nonneg h u) _ (h.set (lpNewLabel_nonneg h u) u)
  · exact h

theorem lpRelaxVertex_measure_lt {G : CSRGraph} {labels : List Int} {u : Nat}
    (hn : Nonneg labels) (h : (lpRelaxVertex G labels u).2 = true) :
    lpMeasure (lpRelaxVertex G labels u).1 < lpMeasure labels := by
  rw [lpRelaxVertex_eq] at h ⊢
  by_cases hc : lpNewLabel G labels u < labels.getD u 0
  · rw [if_pos hc] at h ⊢
    set w := lpNewLabel G labels u with hw
    have hw0 : 0 ≤ w := lpNewLabel_nonneg hn u
    have hlen : u < labels.length := by
      by_contra hle
      rw [List.getD_eq_default _ _ (Nat.le_of_not_lt hle)] at hc
      omega
    calc lpMeasure (lpPush w (G.nbrs u) (labels.set u w))
        ≤ lpMeasure (labels.set u w) :=
          lpMeasure_le_of_pointwise (by simp [lpPush_length]) (lpPush_le _ _ _)
      _ < lpMeasure labels := lpMeasure_set_lt hlen hw0 hc
  · rw [if_neg hc] at h
    simp at h

/-- Reads past the vertex range never relax anything (under well-formedness),
because the adjacency slice degenerates to the empty list. -/
theorem lpRelaxVertex_of_ge {G : CSRGraph} (hwf : G.wf) {u : Nat} (hu : G.n ≤ u)
    (labels : List Int) : lpRelaxVertex G labels u = (labels, false) := by
  apply lpRelaxVertex_false_of_converged
  rw [nbrs_eq_nil_of_ge G hwf hu]
  intro v hv
  cases hv

/-- Every non-`-1`…  label a vertex ever holds is the identifier of a vertex
reachable from it. -/
def LabelsReach (G : CSRGraph) (l : List Int) : Prop :=
  ∀ v, v < G.n → G.reach v (l.getD v 0).toNat

theorem lpRelaxVertex_reach {G : CSRGraph} (hwf : G.wf) (hsym : G.symmetric)
    {labels : List Int} (hr : LabelsReach G labels) (u : Nat) :
    LabelsReach G (lpRelaxVertex G labels u).1 := by
  by_cases hu : u < G.n
  · intro v hv
    rcases lpRelaxVertex_getD G labels u v with h | ⟨h, _, hmem⟩
    · rw [h]; exact hr v hv
    · rw [h]
      have hreach_u_w : G.reach u (lpNewLabel G labels u).toNat := by
        rcases lpScanMin_cases labels (G.nbrs u) (labels.getD u 0) with hc | ⟨x, hx, hc⟩
        · rw [lpNewLabel, hc]; exact hr u hu
        · rw [lpNewLabel, hc]
          have hxn : x < G.n := nbrs_lt hwf hx
          exact Relation.ReflTransGen.head ⟨hu, hx⟩ (hr x hxn)
      rcases hmem with rfl | hmem
      · exact hreach_u_w
      · have : G.reach v u := Relation.ReflTransGen.single ⟨hv, hsym u hu v hmem⟩
        exact Relation.ReflTransGen.trans this hreach_u_w
  · rw [lpRelaxVertex_of_ge hwf (Nat.le_of_not_lt hu)]
    exact hr

/-! ### Relax sequences (rounds) -/

/-- `relaxSeq` from an arbitrary intermediate state. -/
def relaxFrom (G : CSRGraph) (st : List Int × Bool) (order : List Nat) : List Int × Bool :=
  order.foldl (fun st u =>
    let r := lpRelaxVertex G st.1 u
    (r.1, st.2 || r.2)) st

theorem relaxSeq_eq_relaxFrom (G : CSRGraph) (labels : List Int) (order : List Nat) :
    relaxSeq G labels order = relaxFrom G (labels, false) order := rfl

theorem relaxFrom_cons (G : CSRGraph) (st : List Int × Bool) (u : Nat) (rest : List Nat) :
    relaxFrom G st (u :: rest) =
      relaxFrom G ((lpRelaxVertex G st.1 u).1, st.2 || (lpRelaxVertex G st.1 u).2) rest := rfl

theorem relaxFrom_flag (G : CSRGraph) :
    ∀ (order : List Nat) (labels : List Int) (b : Bool),
      relaxFrom G (labels, b) order =
        ((relaxFrom G (labels, false) order).1,
          b || (relaxFrom G (labels, false) order).2) := by
  intro order
  induction order with
  | nil => intro labels b; simp [relaxFrom]
  | cons u rest ih =>
    intro labels b
    rw [relaxFrom_cons, relaxFrom_cons]
    simp only
    rw [ih (lpRelaxVertex G labels u).1 (b || (lpRelaxVertex G labels u).2),
      ih (lpRelaxVertex G labels u).1 (false || (lpRelaxVertex G labels u).2)]
    simp [Bool.or_assoc]

theorem relaxSeq_cons (G : CSRGraph) (labels : List Int) (u : Nat) (rest : List Nat) :
    relaxSeq G labels (u :: rest) =
      ((relaxSeq G (lpRelaxVertex G labels u).1 rest).1,
        (lpRelaxVertex G labels u).2 ||
          (relaxSeq G (lpRelaxVertex G labels u).1 rest).2) := by
  rw [relaxSeq_eq_relaxFrom, relaxFrom_cons]
  simp only
  rw [relaxFrom_flag, ← relaxSeq_eq_relaxFrom]
  simp

theorem relaxSeq_nil (G : CSRGraph) (labels : List Int) :
    relaxSeq G labels [] = (labels, false) := rfl

theorem relaxSeq_length (G : CSRGraph) :
    ∀ (order : List Nat) (labels : List Int),
      (relaxSeq G labels order).1.length = labels.length := by
  intro order
  induction order with
  | nil => intro labels; rfl
  | cons u rest ih =>
    intro labels
    rw [relaxSeq_cons]
    simp only
    rw [ih, lpRelaxVertex_length]

theorem relaxSeq_le (G : CSRGraph) :
    ∀ (order : List Nat) (labels : List Int) (i : Nat),
      (relaxSeq G labels order).1.getD i 0 ≤ labels.getD i 0 := by
  intro order
  induction order with
  | nil => intro labels i; exact le_refl _
  | cons u rest ih =>
    intro labels i
    rw [relaxSeq_cons]
    exact le_trans (ih _ i) (lpRelaxVertex_le G labels u i)

theorem relaxSeq_nonneg (G : CSRGraph) :
    ∀ (order : List Nat) {labels : List Int}, Nonneg labels →
      Nonneg (relaxSeq G labels order).1 := by
  intro order
  induction order with
  | nil => intro labels h; exact h
  | cons u rest ih =>
    intro labels h
    rw [relaxSeq_cons]
    exact ih (lpRelaxVertex_nonneg h u)

theorem relaxSeq_reach {G : CSRGraph} (hwf : G.wf) (hsym : G.symmetric) :
    ∀ (order : List Nat) {labels : List Int}, LabelsReach G labels →
      LabelsReach G (relaxSeq G labels order).1 := by
  intro order
  induction order with
  | nil => intro labels h; exact h
  | cons u rest ih =>
    intro labels h
    rw [relaxSeq_cons]
    exact ih (lpRelaxVertex_reach hwf hsym h u)

theorem relaxSeq_false (G : CSRGraph) :
    ∀ (order : List Nat) {labels : List Int},
      (relaxSeq G labels order).2 = false →
      (relaxSeq G labels order).1 = labels ∧
        ∀ u ∈ order, lpRelaxVertex G labels u = (labels, false) := by
  intro order
  induction order with
  | nil => intro labels _; exact ⟨rfl, by intro u hu; cases hu⟩
  | cons u rest ih =>
    intro labels h
    rw [relaxSeq_cons] at h ⊢
    simp only [Bool.or_eq_false_iff] at h
    obtain ⟨h1, h2⟩ := h
    have hfix : (lpRelaxVertex G labels u).1 = labels := lpRelaxVertex_false h1
    rw [hfix] at h2 ⊢
    obtain ⟨hres, hall⟩ := ih h2
    refine ⟨hres, ?_⟩
    intro v hv
    rcases List.mem_cons.mp hv with rfl | hv'
    · calc lpRelaxVertex G labels v
          = ((lpRelaxVertex G labels v).1, (lpRelaxVertex G labels v).2) := rfl
        _ = (labels, false) := by rw [hfix, h1]
    · exact hall v hv'

theorem relaxSeq_measure_le (G : CSRGraph) (order : List Nat) (labels : List Int) :
    lpMeasure (relaxSeq G labels order).1 ≤ lpMeasure labels :=
  lpMeasure_le_of_pointwise (relaxSeq_length G order labels) (relaxSeq_le G order labels)

theorem relaxSeq_measure_lt (G : CSRGraph) :
    ∀ (order : List Nat) {labels : List Int}, Nonneg labels →
      (relaxSeq G labels order).2 = true →
      lpMeasure (relaxSeq G labels order).1 < lpMeasure labels := by
  intro order
  induction order with
  | nil => intro labels _ h; simp [relaxSeq_nil] at h
  | cons u rest ih =>
    intro labels hnn h
    rw [relaxSeq_cons] at h ⊢
    simp only [Bool.or_eq_true] at h
    by_cases hu : (lpRelaxVertex G labels u).2 = true
    · calc lpMeasure (relaxSeq G (lpRelaxVertex G labels u).1 rest).1
          ≤ lpMeasure (lpRelaxVertex G labels u).1 := relaxSeq_measure_le G rest _
        _ < lpMeasure labels := lpRelaxVertex_measure_lt hnn hu
    · have h1 : (lpRelaxVertex G labels u).1 = labels :=
        lpRelaxVertex_false (Bool.not_eq_true _ ▸ hu)
      rcases h with h | h
      · exact absurd h hu
      · rw [h1] at h ⊢
        exact ih hnn h

/-! ### The convergence invariant and the fixpoint argument -/

/-- A label vector is converged when no relax step can improve it:
every vertex's label is a lower bound of its neighbors' labels. -/
def Converged (G : CSRGraph) (l : List Int) : Prop :=
  ∀ u, u < G.n → ∀ v ∈ G.nbrs u, l.getD u 0 ≤ l.getD v 0

/-- Invariant maintained by every relax step, starting from `labels[i] = i`:
the vector has length `n`, is nonnegative, is bounded by the vertex id, and
every label is the id of a reachable vertex. -/
def LpInv (G : CSRGraph) (l : List Int) : Prop :=
  l.length = G.n ∧ Nonneg l ∧ (∀ v, v < G.n → l.getD v 0 ≤ (v : Int)) ∧ LabelsReach G l

theorem relaxSeq_inv {G : CSRGraph} (hwf : G.wf) (hsym : G.symmetric)
    (order : List Nat) {l : List Int} (h : LpInv G l) :
    LpInv G (relaxSeq G l order).1 := by
  obtain ⟨hlen, hnn, hle, hr⟩ := h
  refine ⟨by rw [relaxSeq_length, hlen], relaxSeq_nonneg G order hnn, ?_,
    relaxSeq_reach hwf hsym order hr⟩
  intro v hv
  exact le_trans (relaxSeq_le G order l v) (hle v hv)

theorem lpInit_length (n : Nat) : (lpInit n).length = n := by
  rw [lpInit, List.length_map, List.length_range]

theorem lpInit_getD {n v : Nat} (h : v < n) : (lpInit n).getD v 0 = (v : Int) := by
  rw [lpInit]
  rw [List.getD_eq_getElem _ _ (by rw [List.length_map, List.length_range]; exact h)]
  rw [List.getElem_map, List.getElem_range]

theorem lpInit_inv (G : CSRGraph) : LpInv G (lpInit G.n) := by
  refine ⟨lpInit_length _, ?_, ?_, ?_⟩
  · intro x hx
    rw [lpInit] at hx
    obtain ⟨i, _, rfl⟩ := List.mem_map.mp hx
    exact Int.natCast_nonneg i
  · intro v hv; rw [lpInit_getD hv]
  · intro v hv
    rw [lpInit_getD hv]
    simpa using Relation.ReflTransGen.refl

theorem lpPass_false_converged {G : CSRGraph} {l : List Int}
    (h : (lpPass G l).2 = false) : Converged G l := by
  intro u hu v hv
  have hfix := (relaxSeq_false G (List.range G.n) h).2 u (List.mem_range.mpr hu)
  exact lpRelaxVertex_false_converged (by rw [hfix]) v hv

theorem lpLoop_succ (G : CSRGraph) (fuel : Nat) (labels : List Int) :
    lpLoop G (fuel + 1) labels =
      if (lpPass G labels).2 then lpLoop G fuel (lpPass G labels).1
      else (lpPass G labels).1 := rfl

theorem lpLoop_spec {G : CSRGraph} (hwf : G.wf) (hsym : G.symmetric) :
    ∀ (fuel : Nat) (l : List Int), LpInv G l → lpMeasure l < fuel →
      LpInv G (lpLoop G fuel l) ∧ Converged G (lpLoop G fuel l) := by
  intro fuel
  induction fuel with
  | zero => intro l _ h; omega
  | succ fuel ih =>
    intro l hinv hm
    rw [lpLoop_succ]
    by_cases hch : (lpPass G l).2 = true
    · rw [if_pos hch]
      have hlt : lpMeasure (lpPass G l).1 < lpMeasure l :=
        relaxSeq_measure_lt G _ hinv.2.1 hch
      exact ih _ (relaxSeq_inv hwf hsym _ hinv) (by omega)
    · have hf : (lpPass G l).2 = false := Bool.not_eq_true _ ▸ hch
      rw [if_neg hch]
      have h1 := (relaxSeq_false G (List.range G.n) hf).1
      have h1' : (lpPass G l).1 = l := h1
      rw [h1']
      exact ⟨hinv, lpPass_false_converged hf⟩

theorem converged_edge_eq {G : CSRGraph} (hwf : G.wf) (hsym : G.symmetric)
    {l : List Int} (hconv : Converged G l) :
    ∀ u, u < G.n → ∀ v ∈ G.nbrs u, l.getD u 0 = l.getD v 0 := by
  intro u hu v hv
  have h1 := hconv u hu v hv
  have hvn : v < G.n := nbrs_lt hwf hv
  have h2 := hconv v hvn u (hsym u hu v hv)
  exact le_antisymm h1 h2

theorem converged_const_on_reach {G : CSRGraph} (hwf : G.wf) (hsym : G.symmetric)
    {l : List Int} (hconv : Converged G l) {u w : Nat} (hu : u < G.n)
    (h : G.reach u w) : l.getD u 0 = l.getD w 0 := by
  induction h with
  | refl => rfl
  | tail hr hadj ih =>
    rename_i b c
    have hb : b < G.n := reach_lt hwf hu hr
    rw [ih, converged_edge_eq hwf hsym hconv b hb c hadj.2]

theorem converged_isLeast {G : CSRGraph} (hwf : G.wf) (hsym : G.symmetric)
    {l : List Int} (hinv : LpInv G l) (hconv : Converged G l) :
    ∀ v, v < G.n → IsLeast {w | G.reach v w} (l.getD v 0).toNat := by
  intro v hv
  obtain ⟨hlen, hnn, hle, hr⟩ := hinv
  constructor
  · exact hr v hv
  · intro w hw
    have hwn : w < G.n := reach_lt hwf hv hw
    have hconst := converged_const_on_reach hwf hsym hconv hv hw
    have h1 : l.getD v 0 ≤ (w : Int) := by
      rw [hconst]; exact hle w hwn
    exact Int.toNat_le.mpr h1

theorem compute_cc_inv {G : CSRGraph} (hwf : G.wf) (hsym : G.symmetric) :
    LpInv G (compute_connected_components G) ∧
      Converged G (compute_connected_components G) :=
  lpLoop_spec hwf hsym _ _ (lpInit_inv G) (Nat.lt_succ_self _)

theorem compute_cc_isLeast {G : CSRGraph} (hwf : G.wf) (hsym : G.symmetric) :
    ∀ v, v < G.n →
      IsLeast {w | G.reach v w} ((compute_connected_components G).getD v 0).toNat :=
  converged_isLeast hwf hsym (compute_cc_inv hwf hsym).1 (compute_cc_inv hwf hsym).2

theorem relaxSeq_append (G : CSRGraph) (labels : List Int) (o₁ o₂ : List Nat) :
    (relaxSeq G labels (o₁ ++ o₂)).1 =
      (relaxSeq G (relaxSeq G labels o₁).1 o₂).1 := by
  induction o₁ generalizing labels with
  | nil => rfl
  | cons u rest ih =>
    rw [List.cons_append, relaxSeq_cons, relaxSeq_cons]
    exact ih _

/-- Example graph: two disjoint edges `{(0,1),(2,3)}` on `n = 4`, symmetrized
(the spec's end-to-end scenario 2). -/
def exGraphTwoPairs : CSRGraph := ⟨4, [0, 1, 2, 3, 4], [1, 0, 3, 2]⟩

/-- **C1**: for every CSR graph whose adjacency is symmetric and
self-loop-free, when the sequential label-propagation kernel
`compute_connected_components` returns, `labels[u] = labels[v]` holds for
every stored edge `(u,v)`, and for every vertex `v`, `labels[v]` equals the
minimum vertex ID of `v`'s connected component.  (The caller-allocated
`n`-sized buffer is modelled by the kernel returning the length-`n` label
list, see `LpInv`.) -/
theorem c1_sequential_lp_correct (G : CSRGraph) (hwf : G.wf) (hsym : G.symmetric)
    (_hloop : G.loopFree) :
    (∀ u, u < G.n → ∀ v ∈ G.nbrs u,
      (compute_connected_components G).getD u 0 =
        (compute_connected_components G).getD v 0) ∧
    (∀ v, v < G.n →
      IsLeast {w | G.reach v w} ((compute_connected_components G).getD v 0).toNat) :=
  ⟨converged_edge_eq hwf hsym (compute_cc_inv hwf hsym).2,
   compute_cc_isLeast hwf hsym⟩

theorem c1_sequential_lp_correct_witness :
    (exGraphTwoPairs.wf ∧ exGraphTwoPairs.symmetric ∧ exGraphTwoPairs.loopFree) ∧
    ((∀ u, u < exGraphTwoPairs.n → ∀ v ∈ exGraphTwoPairs.nbrs u,
      (compute_connected_components exGraphTwoPairs).getD u 0 =
        (compute_connected_components exGraphTwoPairs).getD v 0) ∧
    (∀ v, v < exGraphTwoPairs.n →
      IsLeast {w | exGraphTwoPairs.reach v w}
        ((compute_connected_components exGraphTwoPairs).getD v 0).toNat)) :=
  ⟨⟨by decide, by decide, by decide⟩,
   c1_sequential_lp_correct exGraphTwoPairs (by decide) (by decide) (by decide)⟩

/-- **C4**: in every execution of the parallel LP kernels (modelled as an
arbitrary interleaving `order` of atomic relax steps over the shared label
vector), the per-vertex label is monotonically non-increasing over time:
a single relax step either leaves an entry unchanged or writes a strictly
smaller value (every store / successful CAS lowers the entry), and across
any schedule no later value exceeds an earlier one. -/
theorem c4_atomic_labels_monotone (G : CSRGraph) (labels : List Int)
    (order : List Nat) (u i : Nat) :
    ((lpRelaxVertex G labels u).1.getD i 0 = labels.getD i 0 ∨
      (lpRelaxVertex G labels u).1.getD i 0 < labels.getD i 0) ∧
    (relaxSeq G labels order).1.getD i 0 ≤ labels.getD i 0 ∧
    (∀ later : List Nat,
      (relaxSeq G labels (order ++ later)).1.getD i 0 ≤
        (relaxSeq G labels order).1.getD i 0) := by
  refine ⟨?_, relaxSeq_le G order labels i, ?_⟩
  · rcases lt_or_eq_of_le (lpRelaxVertex_le G labels u i) with h | h
    · exact Or.inr h
    · exact Or.inl h
  · intro later
    rw [relaxSeq_append]
    exact relaxSeq_le G later _ i

/-! ### The worker-pool kernel (`compute_connected_components_pthreads`) -/

/-- The round loop of `lp_worker_full_async`: each round relaxes the whole
iteration space `[0, n)` once — every interleaving of the workers' disjoint
assignments (static blocks, or dynamic `fetch_add` chunks) executes each
vertex's relax exactly once per round, i.e. the round is some permutation
`o` of `range n` of atomic relax steps.  After a round in which no thread
observed a change, the leader broadcasts the `-1` sentinel and all workers
return (flag `true` = terminated). An exhausted schedule returns flag
`false`; the sufficient schedule length is proven. -/
def runRounds (G : CSRGraph) : List (List Nat) → List Int → List Int × Bool
  | [], labels => (labels, false)
  | o :: rest, labels =>
    let r := relaxSeq G labels o
    if r.2 then runRounds G rest r.1 else (r.1, true)

/-- `compute_connected_components_pthreads` (src/unnamed/part_011:674-750):
initialize the shared atomic labels to `labels[i] = i`, run rounds until an
unchanged round, and copy the atomic labels out. -/
def compute_connected_components_pthreads (G : CSRGraph)
    (rounds : List (List Nat)) : List Int × Bool :=
  runRounds G rounds (lpInit G.n)

theorem runRounds_spec {G : CSRGraph} (hwf : G.wf) (hsym : G.symmetric) :
    ∀ (rounds : List (List Nat)) (l : List Int),
      (∀ o ∈ rounds, o.Perm (List.range G.n)) → LpInv G l →
      lpMeasure l < rounds.length →
      (runRounds G rounds l).2 = true ∧ LpInv G (runRounds G rounds l).1 ∧
        Converged G (runRounds G rounds l).1 := by
  intro rounds
  induction rounds with
  | nil => intro l _ _ hm; simp at hm
  | cons o rest ih =>
    intro l hperm hinv hm
    have hcons : runRounds G (o :: rest) l =
        if (relaxSeq G l o).2 then runRounds G rest (relaxSeq G l o).1
        else ((relaxSeq G l o).1, true) := rfl
    rw [hcons]
    by_cases hch : (relaxSeq G l o).2 = true
    · rw [if_pos hch]
      have hlt : lpMeasure (relaxSeq G l o).1 < lpMeasure l :=
        relaxSeq_measure_lt G o hinv.2.1 hch
      have hlen : lpMeasure (relaxSeq G l o).1 < rest.length := by
        simp only [List.length_cons] at hm; omega
      exact ih _ (fun o' ho' => hperm o' (List.mem_cons_of_mem _ ho'))
        (relaxSeq_inv hwf hsym o hinv) hlen
    · have hf : (relaxSeq G l o).2 = false := Bool.not_eq_true _ ▸ hch
      rw [if_neg hch]
      obtain ⟨hres, hall⟩ := relaxSeq_false G o hf
      rw [hres]
      refine ⟨rfl, hinv, ?_⟩
      intro u hu v hv
      have huo : u ∈ o := ((hperm o (List.mem_cons_self _ _)).mem_iff).mpr
        (List.mem_range.mpr hu)
      exact lpRelaxVertex_false_converged (by rw [hall u huo]) v hv

theorem labels_eq_of_isLeast {G : CSRGraph} {l1 l2 : List Int}
    (h1 : l1.length = G.n) (h2 : l2.length = G.n)
    (hn1 : Nonneg l1) (hn2 : Nonneg l2)
    (ha : ∀ v, v < G.n → IsLeast {w | G.reach v w} (l1.getD v 0).toNat)
    (hb : ∀ v, v < G.n → IsLeast {w | G.reach v w} (l2.getD v 0).toNat) :
    l1 = l2 := by
  apply List.ext_getElem (by omega)
  intro i hi1 hi2
  have hv : i < G.n := by omega
  have he := (ha i hv).unique (hb i hv)
  have e1 : l1.getD i 0 = l1[i] := List.getD_eq_getElem _ _ hi1
  have e2 : l2.getD i 0 = l2[i] := List.getD_eq_getElem _ _ hi2
  have g1 : 0 ≤ l1.getD i 0 := hn1.getD i
  have g2 : 0 ≤ l2.getD i 0 := hn2.getD i
  rw [← e1, ← e2]
  omega

/-! ### BFS kernel (`compute_connected_components_bfs`, src/cc.c:209-252) -/

/-- State of the inner BFS `while (front < back)` loop: the label vector,
the queue array modelled as the list of enqueued vertices (the write index
`back` is its length), and the read index `front`. -/
structure BfsState where
  labels : List Int
  queue : List Nat
  front : Nat
deriving DecidableEq

/-- The neighbor scan of one dequeued vertex: every neighbor `v` with
`labels[v] == -1` gets `labels[v] = current_label` and is enqueued
(`queue[back++] = v`). -/
def bfsVisit (cur : Int) (nbrs : List Nat) (s : BfsState) : BfsState :=
  nbrs.foldl (fun s v =>
    if s.labels.getD v 0 = -1 then
      { s with labels := s.labels.set v cur, queue := s.queue ++ [v] }
    else s) s

/-- The inner BFS loop, with fuel; `compute_connected_components_bfs` runs
it with fuel `n`, which is proven sufficient (`front` advances every
iteration and at most `n` vertices are ever enqueued). -/
def bfsLoop (G : CSRGraph) (cur : Int) : Nat → BfsState → BfsState
  | 0, s => s
  | fuel + 1, s =>
    if s.front < s.queue.length then
      bfsLoop G cur fuel
        (bfsVisit cur (G.nbrs (s.queue.getD s.front 0)) { s with front := s.front + 1 })
    else s

/-- One iteration of the outer source loop `for (stc = 0; stc < n; stc++)`:
skip visited sources, otherwise label the source, run a BFS from it and
increment `current_label`. -/
def bfsSource (G : CSRGraph) (st : List Int × Int) (stc : Nat) : List Int × Int :=
  if st.1.getD stc 0 ≠ -1 then st
  else
    let s := bfsLoop G st.2 G.n ⟨st.1.set stc st.2, [stc], 0⟩
    (s.labels, st.2 + 1)

/-- The whole BFS kernel paired with its final `current_label` counter. -/
def bfsRun (G : CSRGraph) : List Int × Int :=
  (List.range G.n).foldl (bfsSource G) (List.replicate G.n (-1), 0)

/-- `compute_connected_components_bfs` (src/cc.c:209-252). -/
def compute_connected_components_bfs (G : CSRGraph) : List Int := (bfsRun G).1

/-- The value of `current_label` when the BFS kernel returns. -/
def bfsCount (G : CSRGraph) : Int := (bfsRun G).2

/-- Invariant of the inner BFS loop for a run with counter `cur` started at
source `stc` on pre-run labels `L0`: queue entries are distinct reachable
in-range vertices, a vertex is in the queue exactly when its label has been
overwritten with `cur`, and all neighbors of dequeued vertices are labelled. -/
structure BfsInv (G : CSRGraph) (cur : Int) (L0 : List Int) (stc : Nat)
    (s : BfsState) : Prop where
  len : s.labels.length = G.n
  q_mem : ∀ v ∈ s.queue, v < G.n
  q_reach : ∀ v ∈ s.queue, G.reach stc v
  q_nodup : s.queue.Nodup
  labeled : ∀ v, v < G.n → (v ∈ s.queue ∧ s.labels.getD v 0 = cur) ∨
    (v ∉ s.queue ∧ s.labels.getD v 0 = L0.getD v 0)
  front_le : s.front ≤ s.queue.length
  processed : ∀ i, i < s.front → ∀ w ∈ G.nbrs (s.queue.getD i 0),
    s.labels.getD w 0 ≠ -1

theorem BfsInv.queue_le {G : CSRGraph} {cur : Int} {L0 : List Int} {stc : Nat}
    {s : BfsState} (hs : BfsInv G cur L0 stc s) : s.queue.length ≤ G.n := by
  have hsub : s.queue ⊆ List.range G.n := fun v hv =>
    List.mem_range.mpr (hs.q_mem v hv)
  simpa using (hs.q_nodup.subperm hsub).length_le

theorem bfsVisit_spec {G : CSRGraph} {cur : Int} {L0 : List Int} {stc : Nat}
    (hcur : 0 ≤ cur) :
    ∀ (nb : List Nat) (s : BfsState), BfsInv G cur L0 stc s →
      (∀ w ∈ nb, w < G.n ∧ G.reach stc w) →
      BfsInv G cur L0 stc (bfsVisit cur nb s) ∧
      (bfsVisit cur nb s).front = s.front ∧
      s.queue.length ≤ (bfsVisit cur nb s).queue.length ∧
      (∀ i, i < s.queue.length →
        (bfsVisit cur nb s).queue.getD i 0 = s.queue.getD i 0) ∧
      (∀ w, s.labels.getD w 0 ≠ -1 → (bfsVisit cur nb s).labels.getD w 0 ≠ -1) ∧
      (∀ w ∈ nb, (bfsVisit cur nb s).labels.getD w 0 ≠ -1) ∧
      (∀ v ∈ s.queue, v ∈ (bfsVisit cur nb s).queue) := by
  intro nb
  induction nb with
  | nil =>
    intro s hs _
    exact ⟨hs, rfl, le_refl _, fun i _ => rfl, fun w h => h,
      fun w hw => absurd hw (List.not_mem_nil w), fun v hv => hv⟩
  | cons v rest ih =>
    intro s hs hnb
    obtain ⟨hvn, hvreach⟩ := hnb v (List.mem_cons_self _ _)
    by_cases hv1 : s.labels.getD v 0 = -1
    · -- `v` is unlabelled: label it `cur` and enqueue it
      have hstep : bfsVisit cur (v :: rest) s =
          bfsVisit cur rest
            { s with labels := s.labels.set v cur, queue := s.queue ++ [v] } := by
        show bfsVisit cur rest (if s.labels.getD v 0 = -1 then _ else s) = _
        rw [if_pos hv1]
      have hvq : v ∉ s.queue := by
        rcases hs.labeled v hvn with ⟨_, hl⟩ | ⟨hq, _⟩
        · rw [hl] at hv1; omega
        · exact hq
      have hvlen : v < s.labels.length := by rw [hs.len]; exact hvn
      set s1 : BfsState :=
        { s with labels := s.labels.set v cur, queue := s.queue ++ [v] } with hs1
      have hinv1 : BfsInv G cur L0 stc s1 := by
        refine ⟨by simp [hs1, hs.len], ?_, ?_, ?_, ?_, ?_, ?_⟩
        · intro w hw
          rcases List.mem_append.mp hw with hw | hw
          · exact hs.q_mem w hw
          · rw [List.mem_singleton.mp hw]; exact hvn
        · intro w hw
          rcases List.mem_append.mp hw with hw | hw
          · exact hs.q_reach w hw
          · rw [List.mem_singleton.mp hw]; exact hvreach
        · simpa [List.nodup_append] using ⟨hs.q_nodup, hvq⟩
        · intro w hwn
          by_cases hwv : w = v
          · subst hwv
            exact Or.inl ⟨List.mem_append.mpr (Or.inr (List.mem_singleton_self _)),
              getD_set_self hvlen _ _⟩
          · have hmem : w ∈ s1.queue ↔ w ∈ s.queue := by
              simp [hs1, List.mem_append, hwv]
            have hlab : s1.labels.getD w 0 = s.labels.getD w 0 :=
              getD_set_ne (fun h => hwv h.symm) _ _
            rcases hs.labeled w hwn with ⟨hq, hl⟩ | ⟨hq, hl⟩
            · exact Or.inl ⟨hmem.mpr hq, by rw [hlab, hl]⟩
            · exact Or.inr ⟨fun hc => hq (hmem.mp hc), by rw [hlab, hl]⟩
        · show s.front ≤ (s.queue ++ [v]).length
          rw [List.length_append]
          exact le_trans hs.front_le (Nat.le_add_right _ _)
        · intro i hi w hw
          have hiq : i < s.queue.length := lt_of_lt_of_le hi hs.front_le
          rw [List.getD_append _ _ _ _ hiq] at hw
          have := hs.processed i hi w hw
          by_cases hwv : w = v
          · subst hwv
            rw [getD_set_self hvlen]
            omega
          · rw [getD_set_ne (fun h => hwv h.symm)]
            exact this
      have hrest := ih s1 hinv1 (fun w hw => hnb w (List.mem_cons_of_mem _ hw))
      obtain ⟨r1, r2, r3, r4, r5, r6, r7⟩ := hrest
      rw [hstep]
      refine ⟨r1, by rw [r2], ?_, ?_, ?_, ?_, ?_⟩
      · calc s.queue.length ≤ s1.queue.length := by simp [hs1]
          _ ≤ _ := r3
      · intro i hi
        have hi1 : i < s1.queue.length := by
          simp only [hs1, List.length_append]
          omega
        rw [r4 i hi1]
        show (s.queue ++ [v]).getD i 0 = s.queue.getD i 0
        exact List.getD_append _ _ _ _ hi
      · intro w hw
        apply r5
        by_cases hwv : w = v
        · subst hwv
          rw [getD_set_self hvlen]
          omega
        · rw [getD_set_ne (fun h => hwv h.symm)]
          exact hw
      · intro w hw
        rcases List.mem_cons.mp hw with rfl | hw'
        · apply r5
          rw [getD_set_self hvlen]
          omega
        · exact r6 w hw'
      · intro w hw
        exact r7 w (List.mem_append.mpr (Or.inl hw))
    · -- `v` is already labelled: no write, no enqueue
      have hstep : bfsVisit cur (v :: rest) s = bfsVisit cur rest s := by
        show bfsVisit cur rest (if s.labels.getD v 0 = -1 then _ else s) = _
        rw [if_neg hv1]
      have hrest := ih s hs (fun w hw => hnb w (List.mem_cons_of_mem _ hw))
      obtain ⟨r1, r2, r3, r4, r5, r6, r7⟩ := hrest
      rw [hstep]
      refine ⟨r1, r2, r3, r4, r5, ?_, r7⟩
      intro w hw
      rcases List.mem_cons.mp hw with rfl | hw'
      · exact r5 w hv1
      · exact r6 w hw'

theorem bfsVisit_cons (cur : Int) (v : Nat) (rest : List Nat) (ls : List Int)
    (qs : List Nat) (fs : Nat) :
    bfsVisit cur (v :: rest) ⟨ls, qs, fs⟩ =
      bfsVisit cur rest
        (if ls.getD v 0 = -1 then ⟨ls.set v cur, qs ++ [v], fs⟩
         else ⟨ls, qs, fs⟩) := rfl

theorem bfsVisit_front (cur : Int) :
    ∀ (nb : List Nat) (s : BfsState) (f : Nat),
      bfsVisit cur nb { s with front := f } =
        { bfsVisit cur nb s with front := f } := by
  intro nb
  induction nb with
  | nil => intro s f; rfl
  | cons v rest ih =>
    intro s f
    obtain ⟨ls, qs, fs⟩ := s
    show bfsVisit cur (v :: rest) ⟨ls, qs, f⟩ =
      { bfsVisit cur (v :: rest) ⟨ls, qs, fs⟩ with front := f }
    rw [bfsVisit_cons, bfsVisit_cons]
    by_cases hv : ls.getD v 0 = -1
    · rw [if_pos hv, if_pos hv]
      exact ih ⟨ls.set v cur, qs ++ [v], fs⟩ f
    · rw [if_neg hv, if_neg hv]
      exact ih ⟨ls, qs, fs⟩ f

theorem bfsLoop_succ (G : CSRGraph) (cur : Int) (fuel : Nat) (s : BfsState) :
    bfsLoop G cur (fuel + 1) s =
      if s.front < s.queue.length then
        bfsLoop G cur fuel
          (bfsVisit cur (G.nbrs (s.queue.getD s.front 0))
            { s with front := s.front + 1 })
      else s := rfl

theorem bfsLoop_spec {G : CSRGraph} {cur : Int} {L0 : List Int} {stc : Nat}
    (hwf : G.wf) (hcur : 0 ≤ cur) :
    ∀ (fuel : Nat) (s : BfsState), BfsInv G cur L0 stc s → G.n ≤ fuel + s.front →
      BfsInv G cur L0 stc (bfsLoop G cur fuel s) ∧
      (bfsLoop G cur fuel s).queue.length ≤ (bfsLoop G cur fuel s).front ∧
      (∀ v ∈ s.queue, v ∈ (bfsLoop G cur fuel s).queue) := by
  intro fuel
  induction fuel with
  | zero =>
    intro s hs hn
    exact ⟨hs, le_trans hs.queue_le (by simpa using hn), fun v hv => hv⟩
  | succ fuel ih =>
    intro s hs hn
    rw [bfsLoop_succ]
    by_cases hlt : s.front < s.queue.length
    · rw [if_pos hlt]
      have humem : s.queue.getD s.front 0 ∈ s.queue := by
        rw [List.getD_eq_getElem _ _ hlt]
        exact List.getElem_mem hlt
      have hun : s.queue.getD s.front 0 < G.n := hs.q_mem _ humem
      have hureach : G.reach stc (s.queue.getD s.front 0) := hs.q_reach _ humem
      have hnb : ∀ w ∈ G.nbrs (s.queue.getD s.front 0), w < G.n ∧ G.reach stc w :=
        fun w hw => ⟨nbrs_lt hwf hw, Relation.ReflTransGen.tail hureach ⟨hun, hw⟩⟩
      obtain ⟨v1, v2, v3, v4, v5, v6, v7⟩ :=
        bfsVisit_spec hcur (G.nbrs (s.queue.getD s.front 0)) s hs hnb
      rw [bfsVisit_front]
      set s2 := bfsVisit cur (G.nbrs (s.queue.getD s.front 0)) s with hs2
      have hinv3 : BfsInv G cur L0 stc { s2 with front := s.front + 1 } := by
        refine ⟨v1.len, v1.q_mem, v1.q_reach, v1.q_nodup, v1.labeled, ?_, ?_⟩
        · show s.front + 1 ≤ s2.queue.length
          omega
        · intro i hi w hw
          show s2.labels.getD w 0 ≠ -1
          have hi' : i < s.front + 1 := hi
          by_cases hif : i < s.front
          · exact v1.processed i (by rw [v2]; exact hif) w hw
          · have hifr : i = s.front := by omega
            subst hifr
            have hq : s2.queue.getD s.front 0 = s.queue.getD s.front 0 :=
              v4 s.front hlt
            have hw2 : w ∈ G.nbrs (s2.queue.getD s.front 0) := hw
            rw [hq] at hw2
            exact v6 w hw2
      have hfin := ih { s2 with front := s.front + 1 } hinv3
        (by show G.n ≤ fuel + (s.front + 1); omega)
      refine ⟨hfin.1, hfin.2.1, ?_⟩
      intro v hv
      exact hfin.2.2 v (v7 v hv)
    · rw [if_neg hlt]
      exact ⟨hs, by omega, fun v hv => hv⟩

/-- Unlabelled regions of a label vector whose labelled set is closed under
adjacency stay unreachable from labelled vertices. -/
theorem labeled_closed_reach {G : CSRGraph} (hwf : G.wf) {L0 : List Int}
    (hclosed : ∀ v, v < G.n → L0.getD v 0 ≠ -1 → ∀ w ∈ G.nbrs v, L0.getD w 0 ≠ -1)
    {x y : Nat} (hx : x < G.n) (hx0 : L0.getD x 0 ≠ -1) (h : G.reach x y) :
    L0.getD y 0 ≠ -1 := by
  induction h with
  | refl => exact hx0
  | tail hr hadj ih =>
    rename_i b c
    exact hclosed b (reach_lt hwf hx hr) ih c hadj.2

/-- At the start of a source's BFS (`labels[stc] = current_label`,
`queue = [stc]`, `front = back = 1` modulo the already-consumed prefix),
the inner invariant holds. -/
theorem bfsInv_init {G : CSRGraph} {cur : Int} {L0 : List Int} {stc : Nat}
    (hstc : stc < G.n) (hlen : L0.length = G.n) :
    BfsInv G cur L0 stc ⟨L0.set stc cur, [stc], 0⟩ := by
  have hstclen : stc < L0.length := by rw [hlen]; exact hstc
  refine ⟨by simp [hlen], ?_, ?_, List.nodup_singleton _, ?_, by simp, ?_⟩
  · intro v hv
    rw [List.mem_singleton.mp hv]; exact hstc
  · intro v hv
    rw [List.mem_singleton.mp hv]
    exact Relation.ReflTransGen.refl
  · intro v hvn
    by_cases hvs : v = stc
    · subst hvs
      exact Or.inl ⟨List.mem_singleton_self _, getD_set_self hstclen _ _⟩
    · refine Or.inr ⟨fun hc => hvs (List.mem_singleton.mp hc), ?_⟩
      exact getD_set_ne (fun h => hvs h.symm) _ _
  · intro i hi
    simp at hi

/-- Summary of one full inner BFS run from an unvisited source `stc`:
exactly the component of `stc` gets labelled `cur`, everything else is
untouched; the queue received each component vertex exactly once. -/
theorem bfsLoop_final {G : CSRGraph} (hwf : G.wf) (hsym : G.symmetric)
    {cur : Int} {L0 : List Int} {stc : Nat}
    (hcur : 0 ≤ cur) (hstc : stc < G.n) (hlen : L0.length = G.n)
    (hstc0 : L0.getD stc 0 = -1)
    (hclosed : ∀ v, v < G.n → L0.getD v 0 ≠ -1 → ∀ w ∈ G.nbrs v, L0.getD w 0 ≠ -1) :
    (bfsLoop G cur G.n ⟨L0.set stc cur, [stc], 0⟩).labels.length = G.n ∧
    (∀ v, v < G.n →
      (G.reach stc v →
        (bfsLoop G cur G.n ⟨L0.set stc cur, [stc], 0⟩).labels.getD v 0 = cur) ∧
      (¬ G.reach stc v →
        (bfsLoop G cur G.n ⟨L0.set stc cur, [stc], 0⟩).labels.getD v 0 =
          L0.getD v 0)) := by
  have hinv0 : BfsInv G cur L0 stc ⟨L0.set stc cur, [stc], 0⟩ :=
    bfsInv_init hstc hlen
  obtain ⟨hF, hfull, hmono⟩ :=
    bfsLoop_spec hwf hcur G.n ⟨L0.set stc cur, [stc], 0⟩ hinv0 (by simp)
  set F := bfsLoop G cur G.n ⟨L0.set stc cur, [stc], 0⟩ with hFdef
  have hstcF : stc ∈ F.queue := hmono stc (List.mem_singleton_self _)
  -- at exit, every neighbor of every queue member is labelled
  have hqclosed : ∀ v ∈ F.queue, ∀ w ∈ G.nbrs v, F.labels.getD w 0 ≠ -1 := by
    intro v hv w hw
    obtain ⟨i, hi, hiv⟩ := List.mem_iff_getElem.mp hv
    have hival : F.queue.getD i 0 = v := by rw [List.getD_eq_getElem _ _ hi, hiv]
    exact hF.processed i (by omega) w (by rw [hival]; exact hw)
  -- the queue contains the whole component of `stc`
  have hcomplete : ∀ w, G.reach stc w → w ∈ F.queue := by
    intro w hw
    induction hw with
    | refl => exact hstcF
    | tail hr hadj ih =>
      rename_i b c
      have hcn : c < G.n := nbrs_lt hwf hadj.2
      have hc1 : F.labels.getD c 0 ≠ -1 := hqclosed b ih c hadj.2
      rcases hF.labeled c hcn with ⟨hq, _⟩ | ⟨_, hl⟩
      · exact hq
      · exfalso
        rw [hl] at hc1
        have hcst : G.reach c stc :=
          reach_symm hwf hsym (Relation.ReflTransGen.tail hr hadj)
        exact (labeled_closed_reach hwf hclosed hcn hc1 hcst) hstc0
  refine ⟨hF.len, ?_⟩
  intro v hv
  constructor
  · intro hr
    rcases hF.labeled v hv with ⟨_, hl⟩ | ⟨hq, _⟩
    · exact hl
    · exact absurd (hcomplete v hr) hq
  · intro hnr
    rcases hF.labeled v hv with ⟨hq, _⟩ | ⟨_, hl⟩
    · exact absurd (hF.q_reach v hq) hnr
    · exact hl

/-- Invariant of the outer source loop after processing sources `[0, t)`,
with counter value `c`: the labelled region is exactly the union of the
components of the processed sources, labels are dense component ids in
`[0, c)`, and equal labels characterize connectivity. -/
structure BfsOuterInv (G : CSRGraph) (t : Nat) (L : List Int) (c : Int) : Prop where
  len : L.length = G.n
  c_nonneg : 0 ≤ c
  c_le : c ≤ (t : Int)
  labeled_iff : ∀ v, v < G.n → (L.getD v 0 ≠ -1 ↔ ∃ u, u < t ∧ G.reach u v)
  val_range : ∀ v, v < G.n → L.getD v 0 ≠ -1 → 0 ≤ L.getD v 0 ∧ L.getD v 0 < c
  dense : ∀ d : Int, 0 ≤ d → d < c → ∃ v, v < G.n ∧ L.getD v 0 = d
  partition : ∀ u v, u < G.n → v < G.n → L.getD u 0 ≠ -1 → L.getD v 0 ≠ -1 →
    (L.getD u 0 = L.getD v 0 ↔ G.reach u v)

theorem getD_replicate_neg_one {n v : Nat} (h : v < n) :
    (List.replicate n (-1 : Int)).getD v 0 = -1 := by
  rw [List.getD_eq_getElem _ _ (by simpa using h)]
  simp

theorem bfsOuterInv_zero (G : CSRGraph) :
    BfsOuterInv G 0 (List.replicate G.n (-1)) 0 := by
  refine ⟨by simp, le_refl _, by simp, ?_, ?_, ?_, ?_⟩
  · intro v hv
    rw [getD_replicate_neg_one hv]
    constructor
    · intro h; omega
    · rintro ⟨u, hu, _⟩; omega
  · intro v hv h
    rw [getD_replicate_neg_one hv] at h
    omega
  · intro d hd hd'; omega
  · intro u v hu hv h1 _
    rw [getD_replicate_neg_one hu] at h1
    omega

theorem bfsSource_step {G : CSRGraph} (hwf : G.wf) (hsym : G.symmetric)
    {t : Nat} {p : List Int × Int} (hinv : BfsOuterInv G t p.1 p.2)
    (ht : t < G.n) :
    BfsOuterInv G (t + 1) (bfsSource G p t).1 (bfsSource G p t).2 := by
  obtain ⟨hlen, hc0, hcle, hiff, hrange, hdense, hpart⟩ := hinv
  by_cases hvis : p.1.getD t 0 ≠ -1
  · -- source already visited: state unchanged
    have hsrc : bfsSource G p t = p := by
      rw [bfsSource, if_pos hvis]
    rw [hsrc]
    refine ⟨hlen, hc0, by omega, ?_, hrange, hdense, hpart⟩
    intro v hv
    rw [hiff v hv]
    constructor
    · rintro ⟨u, hu, hr⟩; exact ⟨u, by omega, hr⟩
    · rintro ⟨u, hu, hr⟩
      rcases Nat.lt_or_ge u t with h | h
      · exact ⟨u, h, hr⟩
      · have hut : u = t := by omega
        subst hut
        obtain ⟨u', hu', hr'⟩ := (hiff u ht).mp hvis
        exact ⟨u', hu', Relation.ReflTransGen.trans hr' hr⟩
  · -- new source: run a BFS from `t` with the current counter
    push_neg at hvis
    have hsrc : bfsSource G p t =
        ((bfsLoop G p.2 G.n ⟨p.1.set t p.2, [t], 0⟩).labels, p.2 + 1) := by
      rw [bfsSource, if_neg (by simpa using hvis)]
    have hclosed : ∀ v, v < G.n → p.1.getD v 0 ≠ -1 →
        ∀ w ∈ G.nbrs v, p.1.getD w 0 ≠ -1 := by
      intro v hv hl w hw
      obtain ⟨u, hu, hr⟩ := (hiff v hv).mp hl
      exact (hiff w (nbrs_lt hwf hw)).mpr
        ⟨u, hu, Relation.ReflTransGen.tail hr ⟨hv, hw⟩⟩
    obtain ⟨hFlen, hchar⟩ :=
      bfsLoop_final hwf hsym hc0 ht hlen hvis hclosed
    set F := bfsLoop G p.2 G.n ⟨p.1.set t p.2, [t], 0⟩ with hFdef
    -- vertices labelled before this source are not in `t`'s component
    have hdisj : ∀ v, v < G.n → p.1.getD v 0 ≠ -1 → ¬ G.reach t v := by
      intro v hv hl hr
      obtain ⟨u, hu, hru⟩ := (hiff v hv).mp hl
      have hut : G.reach u t :=
        Relation.ReflTransGen.trans hru (reach_symm hwf hsym hr)
      exact (hiff t ht).mpr ⟨u, hu, hut⟩ hvis
    rw [hsrc]
    have hval : ∀ v, v < G.n →
        (G.reach t v → F.labels.getD v 0 = p.2) ∧
        (¬ G.reach t v → F.labels.getD v 0 = p.1.getD v 0) := hchar
    refine ⟨hFlen, by omega, by push_cast; omega, ?_, ?_, ?_, ?_⟩
    · -- labelled ↔ reachable from a source in [0, t+1)
      intro v hv
      by_cases hr : G.reach t v
      · rw [(hval v hv).1 hr]
        constructor
        · intro _; exact ⟨t, by omega, hr⟩
        · intro _; omega
      · rw [(hval v hv).2 hr, hiff v hv]
        constructor
        · rintro ⟨u, hu, hru⟩; exact ⟨u, by omega, hru⟩
        · rintro ⟨u, hu, hru⟩
          rcases Nat.lt_or_ge u t with h | h
          · exact ⟨u, h, hru⟩
          · have hut : u = t := by omega
            subst hut
            exact absurd hru hr
    · -- value range
      intro v hv hl
      by_cases hr : G.reach t v
      · rw [(hval v hv).1 hr]
        omega
      · rw [(hval v hv).2 hr] at hl ⊢
        have := hrange v hv hl
        omega
    · -- density
      intro d hd hdc
      by_cases hdc' : d < p.2
      · obtain ⟨v, hv, hvd⟩ := hdense d hd hdc'
        have hl : p.1.getD v 0 ≠ -1 := by omega
        have hnr : ¬ G.reach t v := hdisj v hv hl
        exact ⟨v, hv, by rw [(hval v hv).2 hnr, hvd]⟩
      · have hdeq : d = p.2 := by omega
        subst hdeq
        exact ⟨t, ht, (hval t ht).1 Relation.ReflTransGen.refl⟩
    · -- equal labels iff connected
      intro u v hu hv hlu hlv
      by_cases hru : G.reach t u <;> by_cases hrv : G.reach t v
      · rw [(hval u hu).1 hru, (hval v hv).1 hrv]
        have : G.reach u v :=
          Relation.ReflTransGen.trans (reach_symm hwf hsym hru) hrv
        constructor
        · intro _; exact this
        · intro _; rfl
      · rw [(hval v hv).2 hrv] at hlv
        rw [(hval u hu).1 hru, (hval v hv).2 hrv]
        have hvless := hrange v hv hlv
        constructor
        · intro h; exact absurd h (by omega)
        · intro h
          exact absurd (Relation.ReflTransGen.trans hru h) hrv
      · rw [(hval u hu).2 hru] at hlu
        rw [(hval u hu).2 hru, (hval v hv).1 hrv]
        have huless := hrange u hu hlu
        constructor
        · intro h; exact absurd h (by omega)
        · intro h
          exact absurd (Relation.ReflTransGen.trans hrv
            (reach_symm hwf hsym h)) hru
      · rw [(hval u hu).2 hru] at hlu
        rw [(hval v hv).2 hrv] at hlv
        rw [(hval u hu).2 hru, (hval v hv).2 hrv]
        exact hpart u v hu hv hlu hlv

theorem bfsRun_inv {G : CSRGraph} (hwf : G.wf) (hsym : G.symmetric) :
    BfsOuterInv G G.n (bfsRun G).1 (bfsRun G).2 := by
  suffices h : ∀ t, t ≤ G.n →
      BfsOuterInv G t
        ((List.range t).foldl (bfsSource G) (List.replicate G.n (-1), 0)).1
        ((List.range t).foldl (bfsSource G) (List.replicate G.n (-1), 0)).2 by
    exact h G.n (le_refl _)
  intro t
  induction t with
  | zero => intro _; exact bfsOuterInv_zero G
  | succ t ih =>
    intro ht
    rw [List.range_succ, List.foldl_append, List.foldl_cons, List.foldl_nil]
    exact bfsSource_step hwf hsym (ih (by omega)) (by omega)

/-! ### A computable connectivity closure and the component count -/

/-- One expansion step of the reachable set: keep every in-range vertex that
is already in `S` or adjacent to a member of `S`. -/
def expandReach (G : CSRGraph) (S : List Nat) : List Nat :=
  (List.range G.n).filter (fun w => decide (w ∈ S ∨ ∃ u ∈ S, w ∈ G.nbrs u))

/-- The set of vertices reachable from `v`, computed by `n` expansion steps
(enough to reach the closure fixpoint). -/
def reachList (G : CSRGraph) (v : Nat) : List Nat :=
  (expandReach G)^[G.n] ((List.range G.n).filter (fun w => decide (w = v)))

theorem mem_expandReach {G : CSRGraph} {S : List Nat} {w : Nat} :
    w ∈ expandReach G S ↔ w < G.n ∧ (w ∈ S ∨ ∃ u ∈ S, w ∈ G.nbrs u) := by
  simp only [expandReach, List.mem_filter, List.mem_range, decide_eq_true_eq]

theorem expandReach_nodup (G : CSRGraph) (S : List Nat) :
    (expandReach G S).Nodup :=
  (List.nodup_range _).filter _

theorem expandReach_subset_range (G : CSRGraph) (S : List Nat) :
    expandReach G S ⊆ List.range G.n :=
  (List.filter_sublist _).subset

theorem expandReach_congr {G : CSRGraph} {S S' : List Nat}
    (h : ∀ w, w ∈ S ↔ w ∈ S') : expandReach G S = expandReach G S' := by
  apply List.filter_congr
  intro w _
  apply decide_eq_decide.mpr
  constructor
  · rintro (hw | ⟨u, hu, hw⟩)
    · exact Or.inl ((h w).mp hw)
    · exact Or.inr ⟨u, (h u).mp hu, hw⟩
  · rintro (hw | ⟨u, hu, hw⟩)
    · exact Or.inl ((h w).mpr hw)
    · exact Or.inr ⟨u, (h u).mpr hu, hw⟩

/-- Iterates of the expansion, starting from the singleton `{v}`. -/
def reachIter (G : CSRGraph) (v : Nat) (k : Nat) : List Nat :=
  (expandReach G)^[k] ((List.range G.n).filter (fun w => decide (w = v)))

theorem reachList_eq_iter (G : CSRGraph) (v : Nat) :
    reachList G v = reachIter G v G.n := rfl

theorem reachIter_succ (G : CSRGraph) (v k : Nat) :
    reachIter G v (k + 1) = expandReach G (reachIter G v k) := by
  rw [reachIter, Function.iterate_succ_apply', reachIter]

theorem reachIter_subset_range (G : CSRGraph) (v : Nat) :
    ∀ k, reachIter G v k ⊆ List.range G.n := by
  intro k
  cases k with
  | zero => exact (List.filter_sublist _).subset
  | succ k => rw [reachIter_succ]; exact expandReach_subset_range G _

theorem reachIter_nodup (G : CSRGraph) (v : Nat) : ∀ k, (reachIter G v k).Nodup := by
  intro k
  cases k with
  | zero => exact (List.nodup_range _).filter _
  | succ k => rw [reachIter_succ]; exact expandReach_nodup G _

theorem reachIter_mono (G : CSRGraph) (v k : Nat) :
    reachIter G v k ⊆ reachIter G v (k + 1) := by
  intro w hw
  rw [reachIter_succ, mem_expandReach]
  exact ⟨List.mem_range.mp (reachIter_subset_range G v k hw), Or.inl hw⟩

theorem reachIter_subset_of_le (G : CSRGraph) (v : Nat) :
    ∀ {j k : Nat}, j ≤ k → reachIter G v j ⊆ reachIter G v k := by
  intro j k
  induction k with
  | zero =>
    intro hj
    have : j = 0 := by omega
    subst this
    exact fun _ h => h
  | succ k ih =>
    intro hj
    rcases Nat.lt_or_ge j (k + 1) with h | h
    · exact fun w hw => reachIter_mono G v k (ih (by omega) hw)
    · have : j = k + 1 := by omega
      subst this
      exact fun _ h => h

theorem mem_reachIter_zero {G : CSRGraph} {v w : Nat} :
    w ∈ reachIter G v 0 ↔ w < G.n ∧ w = v := by
  simp [reachIter, List.mem_filter]

theorem reachIter_sound {G : CSRGraph} (_hwf : G.wf) (v : Nat) :
    ∀ k w, w ∈ reachIter G v k → G.reach v w := by
  intro k
  induction k with
  | zero =>
    intro w hw
    rw [(mem_reachIter_zero.mp hw).2]
    exact Relation.ReflTransGen.refl
  | succ k ih =>
    intro w hw
    rw [reachIter_succ, mem_expandReach] at hw
    rcases hw.2 with hw' | ⟨u, hu, hw'⟩
    · exact ih w hw'
    · exact Relation.ReflTransGen.tail (ih u hu)
        ⟨List.mem_range.mp (reachIter_subset_range G v k hu), hw'⟩

/-- Once an expansion step adds nothing (as a set), all further iterates are
literally equal. -/
theorem reachIter_stab {G : CSRGraph} {v k : Nat}
    (h : ∀ w, w ∈ reachIter G v (k + 1) ↔ w ∈ reachIter G v k) :
    ∀ j, k ≤ j → ∀ w, w ∈ reachIter G v j ↔ w ∈ reachIter G v k := by
  intro j
  induction j with
  | zero =>
    intro hj
    have : k = 0 := by omega
    subst this
    intro w; rfl
  | succ j ih =>
    intro hj w
    rcases Nat.lt_or_ge k (j + 1) with hk | hk
    · have hkj : k ≤ j := by omega
      have hjp : reachIter G v (j + 1) = reachIter G v (k + 1) := by
        rw [reachIter_succ, reachIter_succ]
        exact expandReach_congr (ih hkj)
      rw [hjp]
      exact h w
    · have : k = j + 1 := by omega
      subst this
      rfl

/-- If the expansion has not yet stabilized by step `k`, the iterates have
grown at every step, so step `k` has more than `k` elements. -/
theorem reachIter_growth {G : CSRGraph} (v : Nat) (hv : v < G.n) :
    ∀ k, (∃ j, j < k ∧ ∀ w, w ∈ reachIter G v (j + 1) ↔ w ∈ reachIter G v j) ∨
      k + 1 ≤ (reachIter G v k).length := by
  intro k
  induction k with
  | zero =>
    refine Or.inr ?_
    have hvmem : v ∈ reachIter G v 0 := mem_reachIter_zero.mpr ⟨hv, rfl⟩
    cases hlist : reachIter G v 0 with
    | nil => rw [hlist] at hvmem; cases hvmem
    | cons a l => simp
  | succ k ih =>
    rcases ih with ⟨j, hj, hstab⟩ | hlen
    · exact Or.inl ⟨j, by omega, hstab⟩
    · by_cases hstab : ∀ w, w ∈ reachIter G v (k + 1) ↔ w ∈ reachIter G v k
      · exact Or.inl ⟨k, by omega, hstab⟩
      · refine Or.inr ?_
        push_neg at hstab
        obtain ⟨x, hx⟩ := hstab
        have hxnew : x ∈ reachIter G v (k + 1) ∧ x ∉ reachIter G v k := by
          rcases hx with ⟨h1, h2⟩ | ⟨h1, h2⟩
          · exact ⟨h1, h2⟩
          · exact absurd (reachIter_mono G v k h2) h1
        have hsub : x :: reachIter G v k ⊆ reachIter G v (k + 1) := by
          intro w hw
          rcases List.mem_cons.mp hw with rfl | hw'
          · exact hxnew.1
          · exact reachIter_mono G v k hw'
        have hnd : (x :: reachIter G v k).Nodup :=
          List.nodup_cons.mpr ⟨hxnew.2, reachIter_nodup G v k⟩
        have := (hnd.subperm hsub).length_le
        simp only [List.length_cons] at this
        omega

/-- The `n`-th iterate is closed under adjacency. -/
theorem reachList_closed {G : CSRGraph} (hwf : G.wf) {v : Nat} (hv : v < G.n)
    {u w : Nat} (hu : u ∈ reachList G v) (hw : w ∈ G.nbrs u) :
    w ∈ reachList G v := by
  rcases reachIter_growth v hv G.n with ⟨j, hj, hstab⟩ | hlen
  · -- stabilized at j < n: the n-th iterate equals the j-th, which is closed
    have hn : ∀ z, z ∈ reachIter G v G.n ↔ z ∈ reachIter G v j :=
      reachIter_stab hstab G.n (by omega)
    have hnext : ∀ z, z ∈ reachIter G v (j + 1) ↔ z ∈ reachIter G v j := hstab
    rw [reachList_eq_iter] at hu ⊢
    rw [hn] at hu
    rw [hn]
    rw [← hnext]
    rw [reachIter_succ, mem_expandReach]
    exact ⟨nbrs_lt hwf hw, Or.inr ⟨u, hu, hw⟩⟩
  · -- impossible: the iterates are distinct subsets of `range n`
    exfalso
    have hsub := reachIter_subset_range G v G.n
    have := ((reachIter_nodup G v G.n).subperm hsub).length_le
    simp only [List.length_range] at this
    omega

theorem mem_reachList {G : CSRGraph} (hwf : G.wf) {v : Nat} (hv : v < G.n)
    {w : Nat} : w ∈ reachList G v ↔ G.reach v w := by
  constructor
  · exact fun h => reachIter_sound hwf v G.n w h
  · intro h
    induction h with
    | refl =>
      rw [reachList_eq_iter]
      exact reachIter_subset_of_le G v (Nat.zero_le _)
        (mem_reachIter_zero.mpr ⟨hv, rfl⟩)
    | tail hr hadj ih => exact reachList_closed hwf hv ih hadj.2

/-- `v` is the minimum vertex id of its connected component. -/
def isCompMinB (G : CSRGraph) (v : Nat) : Bool :=
  (reachList G v).all (fun w => decide (v ≤ w))

/-- The number of connected components of `G`, counted through their unique
minimum representatives. -/
def componentCount (G : CSRGraph) : Nat :=
  ((List.range G.n).filter (fun v => isCompMinB G v)).length

theorem isCompMinB_iff {G : CSRGraph} (hwf : G.wf) {v : Nat} (hv : v < G.n) :
    isCompMinB G v = true ↔ ∀ w, G.reach v w → v ≤ w := by
  rw [isCompMinB, List.all_eq_true]
  constructor
  · intro h w hw
    simpa using h w ((mem_reachList hwf hv).mpr hw)
  · intro h w hw
    simpa using h w ((mem_reachList hwf hv).mp hw)

theorem foldr_min_le_init (l : List Nat) (a : Nat) : l.foldr min a ≤ a := by
  induction l with
  | nil => exact le_refl _
  | cons x xs ih => exact le_trans (min_le_right _ _) ih

theorem foldr_min_le_mem (l : List Nat) (a : Nat) :
    ∀ x ∈ l, l.foldr min a ≤ x := by
  induction l with
  | nil => intro x hx; cases hx
  | cons y ys ih =>
    intro x hx
    rcases List.mem_cons.mp hx with rfl | hx'
    · exact min_le_left _ _
    · exact le_trans (min_le_right _ _) (ih x hx')

theorem foldr_min_mem (l : List Nat) (a : Nat) :
    l.foldr min a ∈ l ∨ l.foldr min a = a := by
  induction l with
  | nil => exact Or.inr rfl
  | cons y ys ih =>
    show min y (ys.foldr min a) ∈ y :: ys ∨ min y (ys.foldr min a) = a
    rcases min_cases y (ys.foldr min a) with ⟨hm, _⟩ | ⟨hm, _⟩
    · exact Or.inl (by rw [hm]; exact List.mem_cons_self _ _)
    · rcases ih with h | h
      · exact Or.inl (by rw [hm]; exact List.mem_cons_of_mem _ h)
      · exact Or.inr (by rw [hm, h])

/-- Every component of a symmetric graph contains its minimum. -/
theorem exists_compMin {G : CSRGraph} (hwf : G.wf) (_hsym : G.symmetric) {v : Nat}
    (hv : v < G.n) :
    ∃ m, m < G.n ∧ G.reach v m ∧ ∀ w, G.reach m w → m ≤ w := by
  refine ⟨(reachList G v).foldr min v, ?_, ?_, ?_⟩
  · rcases foldr_min_mem (reachList G v) v with h | h
    · exact reach_lt hwf hv (reachIter_sound hwf v G.n _ h)
    · rw [h]; exact hv
  · rcases foldr_min_mem (reachList G v) v with h | h
    · exact (mem_reachList hwf hv).mp h
    · rw [h]
      exact Relation.ReflTransGen.refl
  · intro w hw
    have hvm : G.reach v ((reachList G v).foldr min v) := by
      rcases foldr_min_mem (reachList G v) v with h | h
      · exact (mem_reachList hwf hv).mp h
      · rw [h]
        exact Relation.ReflTransGen.refl
    have hvw : G.reach v w := Relation.ReflTransGen.trans hvm hw
    exact foldr_min_le_mem _ _ w ((mem_reachList hwf hv).mpr hvw)

theorem componentCount_eq_card (G : CSRGraph) :
    componentCount G =
      ((Finset.range G.n).filter (fun v => isCompMinB G v = true)).card := by
  rw [componentCount,
    ← List.toFinset_card_of_nodup ((List.nodup_range _).filter _)]
  congr 1
  ext x
  simp [List.mem_filter, Finset.mem_filter]

/-- For a labelling whose equalities characterize connectivity, the set of
distinct label values is in bijection with the component minima. -/
theorem image_labels_card_eq_componentCount {G : CSRGraph} (hwf : G.wf)
    (hsym : G.symmetric) {L : List Int}
    (hpart : ∀ u v, u < G.n → v < G.n → (L.getD u 0 = L.getD v 0 ↔ G.reach u v)) :
    (Finset.image (fun v => L.getD v 0) (Finset.range G.n)).card =
      componentCount G := by
  rw [componentCount_eq_card]
  symm
  apply Finset.card_bij (fun v _ => L.getD v 0)
  · intro m hm
    have := (Finset.mem_filter.mp hm).1
    exact Finset.mem_image.mpr ⟨m, this, rfl⟩
  · intro m hm m' hm' heq
    obtain ⟨hmr, hmmin⟩ := Finset.mem_filter.mp hm
    obtain ⟨hm'r, hm'min⟩ := Finset.mem_filter.mp hm'
    have hmn : m < G.n := Finset.mem_range.mp hmr
    have hm'n : m' < G.n := Finset.mem_range.mp hm'r
    have hreach : G.reach m m' := (hpart m m' hmn hm'n).mp heq
    have h1 : m ≤ m' := (isCompMinB_iff hwf hmn).mp hmmin m' hreach
    have h2 : m' ≤ m := (isCompMinB_iff hwf hm'n).mp hm'min m
      (reach_symm hwf hsym hreach)
    omega
  · intro x hx
    obtain ⟨v, hvr, rfl⟩ := Finset.mem_image.mp hx
    have hvn : v < G.n := Finset.mem_range.mp hvr
    obtain ⟨m, hmn, hvm, hmmin⟩ := exists_compMin hwf hsym hvn
    refine ⟨m, Finset.mem_filter.mpr ⟨Finset.mem_range.mpr hmn,
      (isCompMinB_iff hwf hmn).mpr hmmin⟩, ?_⟩
    exact (hpart m v hmn hvn).mpr (reach_symm hwf hsym hvm)

/-- The BFS kernel's final counter is the number of connected components. -/
theorem bfsCount_eq_componentCount {G : CSRGraph} (hwf : G.wf)
    (hsym : G.symmetric) : bfsCount G = (componentCount G : Int) := by
  obtain ⟨hlen, hc0, _, hiff, hrange, hdense, hpart⟩ := bfsRun_inv hwf hsym
  have hall : ∀ v, v < G.n → (bfsRun G).1.getD v 0 ≠ -1 := by
    intro v hv
    exact (hiff v hv).mpr ⟨v, hv, Relation.ReflTransGen.refl⟩
  have hpart' : ∀ u v, u < G.n → v < G.n →
      ((bfsRun G).1.getD u 0 = (bfsRun G).1.getD v 0 ↔ G.reach u v) := by
    intro u v hu hv
    exact hpart u v hu hv (hall u hu) (hall v hv)
  have himg : Finset.image (fun v => (bfsRun G).1.getD v 0) (Finset.range G.n) =
      Finset.image (fun k : Nat => (k : Int)) (Finset.range (bfsRun G).2.toNat) := by
    ext x
    simp only [Finset.mem_image, Finset.mem_range]
    constructor
    · rintro ⟨v, hv, rfl⟩
      obtain ⟨h1, h2⟩ := hrange v hv (hall v hv)
      exact ⟨((bfsRun G).1.getD v 0).toNat, by omega, by omega⟩
    · rintro ⟨k, hk, rfl⟩
      obtain ⟨v, hv, hvd⟩ := hdense (k : Int) (by positivity) (by omega)
      exact ⟨v, hv, hvd⟩
  have hcard := image_labels_card_eq_componentCount hwf hsym hpart'
  rw [himg] at hcard
  rw [Finset.card_image_of_injective _ (fun a b h => by exact_mod_cast h),
    Finset.card_range] at hcard
  show (bfsRun G).2 = _
  omega

/-- The BFS labelling induces exactly the connectivity partition. -/
theorem bfs_partition_iff {G : CSRGraph} (hwf : G.wf) (hsym : G.symmetric) :
    ∀ u v, u < G.n → v < G.n →
      ((compute_connected_components_bfs G).getD u 0 =
        (compute_connected_components_bfs G).getD v 0 ↔ G.reach u v) := by
  obtain ⟨_, _, _, hiff, _, _, hpart⟩ := bfsRun_inv hwf hsym
  intro u v hu hv
  exact hpart u v hu hv
    ((hiff u hu).mpr ⟨u, hu, Relation.ReflTransGen.refl⟩)
    ((hiff v hv).mpr ⟨v, hv, Relation.ReflTransGen.refl⟩)

/-- A labelling whose entries are the per-vertex component minima induces
exactly the connectivity partition. -/
theorem isLeast_partition_iff {G : CSRGraph} (hwf : G.wf) (hsym : G.symmetric)
    {L : List Int} (hnn : Nonneg L)
    (hleast : ∀ v, v < G.n → IsLeast {w | G.reach v w} (L.getD v 0).toNat) :
    ∀ u v, u < G.n → v < G.n → (L.getD u 0 = L.getD v 0 ↔ G.reach u v) := by
  intro u v hu hv
  constructor
  · intro h
    have h1 := (hleast u hu).1
    have h2 := (hleast v hv).1
    have ht : (L.getD u 0).toNat = (L.getD v 0).toNat := by rw [h]
    rw [ht] at h1
    exact Relation.ReflTransGen.trans h1 (reach_symm hwf hsym h2)
  · intro h
    have hsets : {w | G.reach u w} = {w | G.reach v w} := by
      ext w
      exact ⟨fun hw => Relation.ReflTransGen.trans (reach_symm hwf hsym h) hw,
        fun hw => Relation.ReflTransGen.trans h hw⟩
    have hLu := hleast u hu
    rw [hsets] at hLu
    have heq := hLu.unique (hleast v hv)
    have g1 : 0 ≤ L.getD u 0 := hnn.getD u
    have g2 : 0 ≤ L.getD v 0 := hnn.getD v
    omega

/-- **C2**: for every symmetric, self-loop-free CSR graph and every
schedule of the worker pool (any thread count and chunk size yields, per
round, some interleaved permutation of the relax steps over `[0, n)`), the
kernel `compute_connected_components_pthreads` terminates within
`lpMeasure + 1` rounds, returns `labels[v]` = the minimum vertex ID
reachable from `v` — the very same label vector the sequential kernel
`compute_connected_components` produces — and its partition coincides with
the BFS kernel's partition up to label renaming. -/
theorem c2_pthreads_matches_sequential_and_bfs (G : CSRGraph) (hwf : G.wf)
    (hsym : G.symmetric) (_hloop : G.loopFree) (rounds : List (List Nat))
    (hperm : ∀ o ∈ rounds, o.Perm (List.range G.n))
    (hrounds : lpMeasure (lpInit G.n) < rounds.length) :
    (compute_connected_components_pthreads G rounds).2 = true ∧
    (∀ v, v < G.n → IsLeast {w | G.reach v w}
      ((compute_connected_components_pthreads G rounds).1.getD v 0).toNat) ∧
    (compute_connected_components_pthreads G rounds).1 =
      compute_connected_components G ∧
    (∀ u v, u < G.n → v < G.n →
      ((compute_connected_components_pthreads G rounds).1.getD u 0 =
          (compute_connected_components_pthreads G rounds).1.getD v 0 ↔
        (compute_connected_components_bfs G).getD u 0 =
          (compute_connected_components_bfs G).getD v 0)) := by
  obtain ⟨hterm, hinv, hconv⟩ := runRounds_spec hwf hsym rounds (lpInit G.n)
    hperm (lpInit_inv G) hrounds
  have hleast := converged_isLeast hwf hsym hinv hconv
  have hseq := compute_cc_inv hwf hsym
  have hseqleast := compute_cc_isLeast hwf hsym
  refine ⟨hterm, hleast, ?_, ?_⟩
  · exact labels_eq_of_isLeast hinv.1 hseq.1.1 hinv.2.1 hseq.1.2.1
      hleast hseqleast
  · intro u v hu hv
    show (runRounds G rounds (lpInit G.n)).1.getD u 0 =
        (runRounds G rounds (lpInit G.n)).1.getD v 0 ↔ _
    rw [isLeast_partition_iff hwf hsym hinv.2.1 hleast u v hu hv,
      bfs_partition_iff hwf hsym u v hu hv]

theorem c2_pthreads_matches_sequential_and_bfs_witness :
    (exGraphTwoPairs.wf ∧ exGraphTwoPairs.symmetric ∧ exGraphTwoPairs.loopFree ∧
      (∀ o ∈ List.replicate 7 [0, 1, 2, 3], o.Perm (List.range exGraphTwoPairs.n)) ∧
      lpMeasure (lpInit exGraphTwoPairs.n) < (List.replicate 7 [0, 1, 2, 3]).length) ∧
    ((compute_connected_components_pthreads exGraphTwoPairs
        (List.replicate 7 [0, 1, 2, 3])).2 = true ∧
    (∀ v, v < exGraphTwoPairs.n → IsLeast {w | exGraphTwoPairs.reach v w}
      ((compute_connected_components_pthreads exGraphTwoPairs
        (List.replicate 7 [0, 1, 2, 3])).1.getD v 0).toNat) ∧
    (compute_connected_components_pthreads exGraphTwoPairs
        (List.replicate 7 [0, 1, 2, 3])).1 =
      compute_connected_components exGraphTwoPairs ∧
    (∀ u v, u < exGraphTwoPairs.n → v < exGraphTwoPairs.n →
      ((compute_connected_components_pthreads exGraphTwoPairs
          (List.replicate 7 [0, 1, 2, 3])).1.getD u 0 =
          (compute_connected_components_pthreads exGraphTwoPairs
            (List.replicate 7 [0, 1, 2, 3])).1.getD v 0 ↔
        (compute_connected_components_bfs exGraphTwoPairs).getD u 0 =
          (compute_connected_components_bfs exGraphTwoPairs).getD v 0))) :=
  ⟨⟨by decide, by decide, by decide, by decide, by decide⟩,
   c2_pthreads_matches_sequential_and_bfs exGraphTwoPairs (by decide) (by decide)
     (by decide) (List.replicate 7 [0, 1, 2, 3]) (by decide) (by decide)⟩

/-- **C3**: for every CSR graph with symmetric adjacency,
`compute_connected_components_bfs` fills the label vector with values dense
in `[0, k)`, where `k` is the number of connected components, and two
vertices receive the same label if and only if they are connected by a
path. -/
theorem c3_bfs_dense_partition (G : CSRGraph) (hwf : G.wf) (hsym : G.symmetric) :
    (∀ v, v < G.n → 0 ≤ (compute_connected_components_bfs G).getD v 0 ∧
      (compute_connected_components_bfs G).getD v 0 < (componentCount G : Int)) ∧
    (∀ d : Int, 0 ≤ d → d < (componentCount G : Int) →
      ∃ v, v < G.n ∧ (compute_connected_components_bfs G).getD v 0 = d) ∧
    (∀ u v, u < G.n → v < G.n →
      ((compute_connected_components_bfs G).getD u 0 =
        (compute_connected_components_bfs G).getD v 0 ↔ G.reach u v)) := by
  obtain ⟨hlen, hc0, _, hiff, hrange, hdense, hpart⟩ := bfsRun_inv hwf hsym
  have hk := bfsCount_eq_componentCount hwf hsym
  rw [bfsCount] at hk
  have hall : ∀ v, v < G.n → (bfsRun G).1.getD v 0 ≠ -1 := by
    intro v hv
    exact (hiff v hv).mpr ⟨v, hv, Relation.ReflTransGen.refl⟩
  refine ⟨?_, ?_, ?_⟩
  · intro v hv
    obtain ⟨h1, h2⟩ := hrange v hv (hall v hv)
    rw [compute_connected_components_bfs]
    omega
  · intro d hd hdk
    obtain ⟨v, hv, hvd⟩ := hdense d hd (by omega)
    exact ⟨v, hv, hvd⟩
  · intro u v hu hv
    exact hpart u v hu hv (hall u hu) (hall v hv)

/-! ### `count_unique_labels` (src/cc.c:254-275) -/

/-- `count_unique_labels`: sweep the labels over a zero-initialized
length-`n` flag array indexed by label value, setting the flag and
incrementing the count on first sight. -/
def count_unique_labels (labels : List Int) (n : Nat) : Nat :=
  (labels.foldl (fun (st : List Bool × Nat) x =>
    if st.1.getD x.toNat false then st
    else (st.1.set x.toNat true, st.2 + 1))
    (List.replicate n false, 0)).2

theorem count_unique_fold {n : Nat} :
    ∀ (l : List Int) (flags : List Bool) (c : Nat) (seen : Finset Int),
      flags.length = n →
      (∀ x ∈ l, 0 ≤ x ∧ x < (n : Int)) →
      (∀ j : Nat, j < n → (flags.getD j false = true ↔ (j : Int) ∈ seen)) →
      c = seen.card →
      (l.foldl (fun (st : List Bool × Nat) x =>
        if st.1.getD x.toNat false then st
        else (st.1.set x.toNat true, st.2 + 1)) (flags, c)).2 =
        (seen ∪ l.toFinset).card := by
  intro l
  induction l with
  | nil => intro flags c seen _ _ _ hc; simp [hc]
  | cons x xs ih =>
    intro flags c seen hflen hrange hflags hc
    obtain ⟨hx0, hxn⟩ := hrange x (List.mem_cons_self _ _)
    have hxt : x.toNat < n := by omega
    have hcast : ((x.toNat : Nat) : Int) = x := by omega
    rw [List.foldl_cons]
    by_cases hfx : flags.getD x.toNat false = true
    · have hxseen : x ∈ seen := by
        have := (hflags x.toNat hxt).mp hfx
        rwa [hcast] at this
      rw [if_pos hfx]
      rw [ih flags c seen hflen (fun y hy => hrange y (List.mem_cons_of_mem _ hy))
        hflags hc]
      congr 1
      ext y
      simp only [Finset.mem_union, List.mem_toFinset, List.toFinset_cons,
        Finset.mem_insert]
      constructor
      · intro h; tauto
      · intro h
        rcases h with h | h | h
        · exact Or.inl h
        · exact Or.inl (h ▸ hxseen)
        · exact Or.inr h
    · have hxnew : x ∉ seen := fun hx =>
        hfx ((hflags x.toNat hxt).mpr (hcast ▸ hx))
      rw [if_neg hfx]
      have hflags' : ∀ j : Nat, j < n →
          ((flags.set x.toNat true).getD j false = true ↔
            (j : Int) ∈ insert x seen) := by
        intro j hj
        by_cases hjx : j = x.toNat
        · rw [hjx]
          have hjlen : x.toNat < flags.length := by omega
          rw [getD_set_self hjlen]
          simp [hcast]
        · rw [getD_set_ne (fun h => hjx h.symm)]
          rw [hflags j hj]
          have hne : (j : Int) ≠ x := by omega
          simp [hne]
      rw [ih (flags.set x.toNat true) (c + 1) (insert x seen)
        (by simp [hflen]) (fun y hy => hrange y (List.mem_cons_of_mem _ hy))
        hflags' (by rw [Finset.card_insert_of_not_mem hxnew, hc])]
      congr 1
      ext y
      simp only [Finset.mem_union, Finset.mem_insert, List.mem_toFinset,
        List.toFinset_cons]
      tauto

theorem count_unique_labels_eq_card {labels : List Int} {n : Nat}
    (hrange : ∀ x ∈ labels, 0 ≤ x ∧ x < (n : Int)) :
    count_unique_labels labels n = labels.toFinset.card := by
  rw [count_unique_labels]
  have hflags0 : ∀ j : Nat, j < n →
      ((List.replicate n false).getD j false = true ↔
        (j : Int) ∈ (∅ : Finset Int)) := by
    intro j hj
    rw [List.getD_eq_getElem _ _ (by simpa using hj)]
    simp
  rw [count_unique_fold labels (List.replicate n false) 0 ∅ (by simp)
    hrange hflags0 rfl]
  simp

/-- **C6**: for every `n ≥ 0` and every length-`n` label array whose values
all lie in `[0, n)`, `count_unique_labels(labels, n)` returns exactly the
number of distinct values occurring in the array; in particular, applied to
the output of any kernel (a labelling whose equalities characterize
connectivity), it returns `k`, the true number of connected components. -/
theorem c6_count_unique_distinct (labels : List Int) (n : Nat)
    (hlen : labels.length = n) (hrange : ∀ x ∈ labels, 0 ≤ x ∧ x < (n : Int)) :
    count_unique_labels labels n = labels.toFinset.card ∧
    (∀ G : CSRGraph, G.wf → G.symmetric → G.n = n →
      (∀ u v, u < n → v < n →
        (labels.getD u 0 = labels.getD v 0 ↔ G.reach u v)) →
      count_unique_labels labels n = componentCount G) := by
  refine ⟨count_unique_labels_eq_card hrange, ?_⟩
  intro G hwf hsym hGn hpart
  subst hGn
  rw [count_unique_labels_eq_card hrange]
  have himg : labels.toFinset =
      Finset.image (fun v => labels.getD v 0) (Finset.range G.n) := by
    ext x
    simp only [List.mem_toFinset, Finset.mem_image, Finset.mem_range]
    constructor
    · intro hx
      obtain ⟨i, hi, hix⟩ := List.mem_iff_getElem.mp hx
      exact ⟨i, by omega, by rw [List.getD_eq_getElem _ _ hi, hix]⟩
    · rintro ⟨v, hv, rfl⟩
      have hvlen : v < labels.length := by omega
      rw [List.getD_eq_getElem _ _ hvlen]
      exact List.getElem_mem hvlen
  rw [himg]
  exact image_labels_card_eq_componentCount hwf hsym hpart

/-- Example graph: a single isolated vertex. -/
def exGraphSingle : CSRGraph := ⟨1, [0, 0], []⟩

theorem c6_count_unique_distinct_witness :
    (([(0 : Int)].length = 1 ∧ (∀ x ∈ [(0 : Int)], 0 ≤ x ∧ x < (1 : Int)) ∧
      exGraphSingle.wf ∧ exGraphSingle.symmetric ∧ exGraphSingle.n = 1 ∧
      (∀ u v, u < 1 → v < 1 →
        ([(0 : Int)].getD u 0 = [(0 : Int)].getD v 0 ↔ exGraphSingle.reach u v))) ∧
    (count_unique_labels [(0 : Int)] 1 = [(0 : Int)].toFinset.card ∧
      count_unique_labels [(0 : Int)] 1 = componentCount exGraphSingle)) := by
  have hpart : ∀ u v, u < 1 → v < 1 →
      ([(0 : Int)].getD u 0 = [(0 : Int)].getD v 0 ↔ exGraphSingle.reach u v) := by
    intro u v hu hv
    have hu0 : u = 0 := by omega
    have hv0 : v = 0 := by omega
    subst hu0; subst hv0
    exact ⟨fun _ => Relation.ReflTransGen.refl, fun _ => rfl⟩
  have hmain := c6_count_unique_distinct [(0 : Int)] 1 (by decide) (by decide)
  exact ⟨⟨by decide, by decide, by decide, by decide, rfl, hpart⟩,
    hmain.1, hmain.2 exGraphSingle (by decide) (by decide) rfl hpart⟩

/-! ### CSR builder (`load_csr_from_mtx`, src/graph.c:47-165) -/

/-- The lexicographic order decided by `cmp_edge` (src/graph.c:18-27). -/
def edgeLe (a b : Nat × Nat) : Prop :=
  a.1 < b.1 ∨ (a.1 = b.1 ∧ a.2 ≤ b.2)

/-- Strict version of `edgeLe` (distinct records in `cmp_edge` order). -/
def edgeLt (a b : Nat × Nat) : Prop :=
  a.1 < b.1 ∨ (a.1 = b.1 ∧ a.2 < b.2)

instance : DecidableRel edgeLe := fun a b => by unfold edgeLe; infer_instance

instance : DecidableRel edgeLt := fun a b => by unfold edgeLt; infer_instance

instance : IsTotal (Nat × Nat) edgeLe := ⟨by intro a b; unfold edgeLe; omega⟩

instance : IsTrans (Nat × Nat) edgeLe := ⟨by intro a b c; unfold edgeLe; omega⟩

/-- Record-collection phase of `load_csr_from_mtx` (src/graph.c:93-115):
each 0-based record outside `[0,n)²` is discarded, the rest are appended,
with the reverse edge also appended when the file is declared symmetric or
symmetrization was requested and the record is not a self-loop. -/
def collectEdges (n : Nat) (symmetric_in_file symmetrize : Bool)
    (records : List (Int × Int)) : List (Nat × Nat) :=
  records.foldl (fun E r =>
    if r.1 < 0 ∨ r.2 < 0 ∨ (n : Int) ≤ r.1 ∨ (n : Int) ≤ r.2 then E
    else
      let e : Nat × Nat := (r.1.toNat, r.2.toNat)
      if (symmetric_in_file || symmetrize) ∧ e.1 ≠ e.2 then E ++ [e, (e.2, e.1)]
      else E ++ [e]) []

/-- `qsort(E, m, sizeof(Edge), cmp_edge)` (src/graph.c:118).  `cmp_edge` is
a total order under which equivalent records are equal, so every correct
sort of the buffer produces the same list; modelled by insertion sort. -/
def sortEdges (E : List (Nat × Nat)) : List (Nat × Nat) :=
  List.insertionSort edgeLe E

/-- `dedup_edges` (src/graph.c:30-45): one in-place sweep that skips
self-loops when requested and skips records equal to the last kept one. -/
def dedup_edges (drop_self_loops : Bool) (E : List (Nat × Nat)) :
    List (Nat × Nat) :=
  E.foldl (fun W e =>
    if drop_self_loops = true ∧ e.1 = e.2 then W
    else if W.getLast? = some e then W
    else W ++ [e]) []

/-- Histogram phase (src/graph.c:128-129): `row_ptr[E[r].u + 1]++`. -/
def countRows (n : Nat) (E : List (Nat × Nat)) : List Nat :=
  E.foldl (fun rp e => rp.set (e.1 + 1) (rp.getD (e.1 + 1) 0 + 1))
    (List.replicate (n + 1) 0)

/-- Prefix-sum phase (src/graph.c:130-131): `row_ptr[i+1] += row_ptr[i]`. -/
def prefixRows (n : Nat) (rp : List Nat) : List Nat :=
  (List.range n).foldl
    (fun rp i => rp.set (i + 1) (rp.getD (i + 1) 0 + rp.getD i 0)) rp

/-- Scatter phase (src/graph.c:141-155): `col_idx[head[u]++] = E[r].v`, with
the head cursors initialized to the first `n` row pointers. -/
def scatterCols (m n : Nat) (rowp : List Nat) (E : List (Nat × Nat)) :
    List Nat :=
  (E.foldl (fun (st : List Nat × List Nat) e =>
    (st.1.set (st.2.getD e.1 0) e.2, st.2.set e.1 (st.2.getD e.1 0 + 1)))
    (List.replicate m 0, rowp.take n)).1

/-- The post-parsing core of `load_csr_from_mtx` (src/graph.c:47-165): with
`n = max(M, N)` and the already 0-based records, collect, sort, dedup and
lay out the CSR graph. -/
def load_csr_from_mtx (n : Nat)
    (symmetric_in_file symmetrize drop_self_loops : Bool)
    (records : List (Int × Int)) : CSRGraph :=
  let E := dedup_edges drop_self_loops
    (sortEdges (collectEdges n symmetric_in_file symmetrize records))
  let row_ptr := prefixRows n (countRows n E)
  ⟨n, row_ptr, scatterCols E.length n row_ptr E⟩

/-- The edge-buffer capacity computed at src/graph.c:85:
`cap = nz * (symmetric_in_file || symmetrize ? 2 : 1)`. -/
def edgeCapacity (nz : Nat) (symmetric_in_file symmetrize : Bool) : Nat :=
  nz * (if symmetric_in_file || symmetrize then 2 else 1)

theorem edgeLt_of_le_ne {a b : Nat × Nat} (h : edgeLe a b) (hne : a ≠ b) :
    edgeLt a b := by
  have hcomp : a.1 ≠ b.1 ∨ a.2 ≠ b.2 := by
    by_contra hc
    push_neg at hc
    exact hne (Prod.ext hc.1 hc.2)
  unfold edgeLe at h
  unfold edgeLt
  omega

theorem edgeLt_of_lt_of_le {a b c : Nat × Nat} (h1 : edgeLt a b)
    (h2 : edgeLe b c) : edgeLt a c := by
  unfold edgeLt at h1 ⊢
  unfold edgeLe at h2
  omega

theorem edgeLe_of_lt {a b : Nat × Nat} (h : edgeLt a b) : edgeLe a b := by
  unfold edgeLt at h
  unfold edgeLe
  omega

theorem collectEdges_mem {n : Nat} {symmetric_in_file symmetrize : Bool}
    {records : List (Int × Int)} :
    ∀ e ∈ collectEdges n symmetric_in_file symmetrize records,
      e.1 < n ∧ e.2 < n := by
  rw [collectEdges]
  suffices h : ∀ (rs : List (Int × Int)) (acc : List (Nat × Nat)),
      (∀ e ∈ acc, e.1 < n ∧ e.2 < n) →
      ∀ e ∈ rs.foldl (fun E r =>
        if r.1 < 0 ∨ r.2 < 0 ∨ (n : Int) ≤ r.1 ∨ (n : Int) ≤ r.2 then E
        else
          let e : Nat × Nat := (r.1.toNat, r.2.toNat)
          if (symmetric_in_file || symmetrize) ∧ e.1 ≠ e.2 then
            E ++ [e, (e.2, e.1)]
          else E ++ [e]) acc, e.1 < n ∧ e.2 < n by
    exact h records [] (by intro e he; cases he)
  intro rs
  induction rs with
  | nil => intro acc hacc e he; exact hacc e he
  | cons r rs ih =>
    intro acc hacc e he
    rw [List.foldl_cons] at he
    refine ih _ ?_ e he
    intro x hx
    split at hx
    · exact hacc x hx
    · rename_i hr
      push_neg at hr
      obtain ⟨h1, h2, h3, h4⟩ := hr
      have hb1 : r.1.toNat < n := by omega
      have hb2 : r.2.toNat < n := by omega
      have hx' : x ∈ (if (symmetric_in_file || symmetrize) = true ∧
          r.1.toNat ≠ r.2.toNat
          then acc ++ [(r.1.toNat, r.2.toNat), (r.2.toNat, r.1.toNat)]
          else acc ++ [(r.1.toNat, r.2.toNat)]) := hx
      split at hx'
      · rcases List.mem_append.mp hx' with hx'' | hx''
        · exact hacc x hx''
        · rcases List.mem_cons.mp hx'' with rfl | hx''
          · exact ⟨hb1, hb2⟩
          · rw [List.mem_singleton.mp hx'']
            exact ⟨hb2, hb1⟩
      · rcases List.mem_append.mp hx' with hx'' | hx''
        · exact hacc x hx''
        · rw [List.mem_singleton.mp hx'']
          exact ⟨hb1, hb2⟩

theorem sortEdges_sorted (E : List (Nat × Nat)) :
    List.Sorted edgeLe (sortEdges E) :=
  List.sorted_insertionSort edgeLe E

theorem sortEdges_mem (E : List (Nat × Nat)) {e : Nat × Nat} :
    e ∈ sortEdges E ↔ e ∈ E :=
  (List.perm_insertionSort edgeLe E).mem_iff

/-- In a strictly increasing kept buffer, every element is at most the last
kept record. -/
theorem pairwise_le_getLast {W : List (Nat × Nat)} (hW : List.Pairwise edgeLt W)
    {lst : Nat × Nat} (hlst : W.getLast? = some lst) :
    ∀ x ∈ W, x = lst ∨ edgeLt x lst := by
  obtain ⟨W₀, rfl⟩ := List.getLast?_eq_some_iff.mp hlst
  intro x hx
  rcases List.mem_append.mp hx with hx' | hx'
  · exact Or.inr ((List.pairwise_append.mp hW).2.2 x hx' lst
      (List.mem_singleton_self _))
  · exact Or.inl (List.mem_singleton.mp hx')

/-- The dedup sweep over a sorted buffer yields a strictly increasing,
self-loop-free (when requested) buffer drawn from its input. -/
theorem dedup_fold (drop : Bool) :
    ∀ (S W : List (Nat × Nat)), List.Pairwise edgeLt W →
      List.Sorted edgeLe S →
      (∀ f ∈ S, ∀ x ∈ W, edgeLe x f) →
      (drop = true → ∀ x ∈ W, x.1 ≠ x.2) →
      List.Pairwise edgeLt (S.foldl (fun W e =>
        if drop = true ∧ e.1 = e.2 then W
        else if W.getLast? = some e then W
        else W ++ [e]) W) ∧
      (drop = true → ∀ x ∈ S.foldl (fun W e =>
        if drop = true ∧ e.1 = e.2 then W
        else if W.getLast? = some e then W
        else W ++ [e]) W, x.1 ≠ x.2) ∧
      (∀ x ∈ S.foldl (fun W e =>
        if drop = true ∧ e.1 = e.2 then W
        else if W.getLast? = some e then W
        else W ++ [e]) W, x ∈ W ∨ x ∈ S) := by
  intro S
  induction S with
  | nil =>
    intro W hW _ _ hloop
    exact ⟨hW, hloop, fun x hx => Or.inl hx⟩
  | cons e S' ih =>
    intro W hW hS hle hloop
    rw [List.foldl_cons]
    have hS' : List.Sorted edgeLe S' := hS.of_cons
    have heS' : ∀ f ∈ S', edgeLe e f := fun f hf =>
      (List.sorted_cons.mp hS).1 f hf
    by_cases h1 : drop = true ∧ e.1 = e.2
    · rw [if_pos h1]
      obtain ⟨r1, r2, r3⟩ := ih W hW hS'
        (fun f hf x hx => hle f (List.mem_cons_of_mem _ hf) x hx) hloop
      exact ⟨r1, r2, fun x hx => (r3 x hx).imp id (List.mem_cons_of_mem _)⟩
    · rw [if_neg h1]
      by_cases h2 : W.getLast? = some e
      · rw [if_pos h2]
        obtain ⟨r1, r2, r3⟩ := ih W hW hS'
          (fun f hf x hx => hle f (List.mem_cons_of_mem _ hf) x hx) hloop
        exact ⟨r1, r2, fun x hx => (r3 x hx).imp id (List.mem_cons_of_mem _)⟩
      · rw [if_neg h2]
        have heW : e ∉ W := by
          intro heW
          cases hW0 : W.getLast? with
          | none =>
            rw [List.getLast?_eq_none_iff.mp hW0] at heW
            cases heW
          | some lst =>
            rcases pairwise_le_getLast hW hW0 e heW with rfl | hlt
            · exact h2 hW0
            · have h3 : edgeLe lst e := hle e (List.mem_cons_self _ _) lst
                (List.mem_of_getLast?_eq_some hW0)
              have hee : edgeLt e e := edgeLt_of_lt_of_le hlt h3
              unfold edgeLt at hee
              omega
        have hW' : List.Pairwise edgeLt (W ++ [e]) := by
          rw [List.pairwise_append]
          refine ⟨hW, List.pairwise_singleton _ _, ?_⟩
          intro x hx y hy
          rw [List.mem_singleton.mp hy]
          exact edgeLt_of_le_ne (hle e (List.mem_cons_self _ _) x hx)
            (fun hxe => heW (hxe ▸ hx))
        have hle' : ∀ f ∈ S', ∀ x ∈ W ++ [e], edgeLe x f := by
          intro f hf x hx
          rcases List.mem_append.mp hx with hx | hx
          · exact hle f (List.mem_cons_of_mem _ hf) x hx
          · rw [List.mem_singleton.mp hx]
            exact heS' f hf
        have hloop' : drop = true → ∀ x ∈ W ++ [e], x.1 ≠ x.2 := by
          intro hd x hx
          rcases List.mem_append.mp hx with hx | hx
          · exact hloop hd x hx
          · rw [List.mem_singleton.mp hx]
            intro hc
            exact h1 ⟨hd, hc⟩
        obtain ⟨r1, r2, r3⟩ := ih (W ++ [e]) hW' hS' hle' hloop'
        refine ⟨r1, r2, ?_⟩
        intro x hx
        rcases r3 x hx with hx' | hx'
        · rcases List.mem_append.mp hx' with h | h
          · exact Or.inl h
          · exact Or.inr (by rw [List.mem_singleton.mp h]; exact List.mem_cons_self _ _)
        · exact Or.inr (List.mem_cons_of_mem _ hx')

theorem dedup_edges_spec (drop : Bool) {S : List (Nat × Nat)}
    (hS : List.Sorted edgeLe S) :
    List.Pairwise edgeLt (dedup_edges drop S) ∧
    (drop = true → ∀ x ∈ dedup_edges drop S, x.1 ≠ x.2) ∧
    (∀ x ∈ dedup_edges drop S, x ∈ S) := by
  obtain ⟨r1, r2, r3⟩ := dedup_fold drop S [] (List.Pairwise.nil) hS
    (fun f _ x hx => absurd hx (List.not_mem_nil x))
    (fun _ x hx => absurd hx (List.not_mem_nil x))
  refine ⟨r1, r2, ?_⟩
  intro x hx
  rcases r3 x hx with h | h
  · cases h
  · exact h

theorem getD_replicate_zero (k j : Nat) :
    (List.replicate k (0 : Nat)).getD j 0 = 0 := by
  by_cases hj : j < k
  · rw [List.getD_eq_getElem _ _ (by simpa using hj)]
    simp
  · rw [List.getD_eq_default _ _ (by simpa using Nat.le_of_not_lt hj)]

theorem countRows_fold_length :
    ∀ (l : List (Nat × Nat)) (acc : List Nat),
      (l.foldl (fun rp e => rp.set (e.1 + 1) (rp.getD (e.1 + 1) 0 + 1))
        acc).length = acc.length := by
  intro l
  induction l with
  | nil => intro acc; rfl
  | cons e l ih => intro acc; rw [List.foldl_cons, ih]; simp

theorem countRows_length (n : Nat) (E : List (Nat × Nat)) :
    (countRows n E).length = n + 1 := by
  rw [countRows, countRows_fold_length]
  simp

theorem countRows_fold_getD {n : Nat} :
    ∀ (l : List (Nat × Nat)) (acc : List Nat), acc.length = n + 1 →
      (∀ e ∈ l, e.1 < n) → ∀ j,
      (l.foldl (fun rp e => rp.set (e.1 + 1) (rp.getD (e.1 + 1) 0 + 1))
        acc).getD j 0 =
        acc.getD j 0 + (l.filter (fun e => e.1 + 1 = j)).length := by
  intro l
  induction l with
  | nil => intro acc _ _ j; simp
  | cons e l ih =>
    intro acc hlen hl j
    rw [List.foldl_cons]
    have he : e.1 < n := hl e (List.mem_cons_self _ _)
    have hset : e.1 + 1 < acc.length := by omega
    rw [ih _ (by simp [hlen]) (fun x hx => hl x (List.mem_cons_of_mem _ hx)) j]
    rw [List.filter_cons]
    by_cases hj : e.1 + 1 = j
    · rw [if_pos (by simpa using hj)]
      rw [hj] at hset ⊢
      rw [getD_set_self hset]
      simp
      omega
    · rw [if_neg (by simpa using hj)]
      rw [getD_set_ne (fun h => hj h) _ _]

theorem countRows_getD {n : Nat} {E : List (Nat × Nat)}
    (hE : ∀ e ∈ E, e.1 < n) (j : Nat) :
    (countRows n E).getD j 0 = (E.filter (fun e => e.1 + 1 = j)).length := by
  rw [countRows, countRows_fold_getD E _ (by simp) hE j, getD_replicate_zero]
  omega

/-- Sum of the first `j+1` histogram entries. -/
def rowPrefixSum (cnt : List Nat) (j : Nat) : Nat :=
  ((List.range (j + 1)).map (fun t => cnt.getD t 0)).sum

theorem rowPrefixSum_succ (cnt : List Nat) (j : Nat) :
    rowPrefixSum cnt (j + 1) = rowPrefixSum cnt j + cnt.getD (j + 1) 0 := by
  rw [rowPrefixSum, rowPrefixSum, List.range_succ, List.map_append]
  simp

theorem prefixRows_invariant {n : Nat} {cnt : List Nat} (hlen : cnt.length = n + 1) :
    ∀ k, k ≤ n →
      ((List.range k).foldl
        (fun rp i => rp.set (i + 1) (rp.getD (i + 1) 0 + rp.getD i 0))
        cnt).length = n + 1 ∧
      (∀ j, j ≤ k →
        ((List.range k).foldl
          (fun rp i => rp.set (i + 1) (rp.getD (i + 1) 0 + rp.getD i 0))
          cnt).getD j 0 = rowPrefixSum cnt j) ∧
      (∀ j, k < j →
        ((List.range k).foldl
          (fun rp i => rp.set (i + 1) (rp.getD (i + 1) 0 + rp.getD i 0))
          cnt).getD j 0 = cnt.getD j 0) := by
  intro k
  induction k with
  | zero =>
    intro _
    refine ⟨by simpa using hlen, ?_, fun j _ => rfl⟩
    intro j hj
    have hj0 : j = 0 := by omega
    subst hj0
    rw [rowPrefixSum, List.range_succ, List.range_zero]
    simp
  | succ k ih =>
    intro hk
    obtain ⟨ilen, ilow, ihigh⟩ := ih (by omega)
    rw [List.range_succ, List.foldl_append, List.foldl_cons, List.foldl_nil]
    set R := (List.range k).foldl
      (fun rp i => rp.set (i + 1) (rp.getD (i + 1) 0 + rp.getD i 0)) cnt with hR
    have hstep : R.getD (k + 1) 0 + R.getD k 0 = rowPrefixSum cnt (k + 1) := by
      rw [ihigh (k + 1) (by omega), ilow k (le_refl _), rowPrefixSum_succ]
      omega
    have hkl : k + 1 < R.length := by omega
    refine ⟨by simpa using ilen, ?_, ?_⟩
    · intro j hj
      by_cases hjk : j = k + 1
      · rw [hjk, getD_set_self hkl, hstep]
      · rw [getD_set_ne (fun h => hjk h.symm)]
        exact ilow j (by omega)
    · intro j hj
      rw [getD_set_ne (by omega)]
      exact ihigh j (by omega)

theorem filter_fst_lt_succ (E : List (Nat × Nat)) (u : Nat) :
    (E.filter (fun e => e.1 < u + 1)).length =
      (E.filter (fun e => e.1 < u)).length +
        (E.filter (fun e => e.1 = u)).length := by
  induction E with
  | nil => rfl
  | cons e E ih =>
    rw [List.filter_cons, List.filter_cons, List.filter_cons]
    rcases Nat.lt_trichotomy e.1 u with h | h | h
    · rw [if_pos (by simp; omega), if_pos (by simpa using h),
        if_neg (by simp; omega)]
      simp only [List.length_cons]
      omega
    · rw [if_pos (by simp; omega), if_neg (by simp; omega),
        if_pos (by simpa using h)]
      simp only [List.length_cons]
      omega
    · rw [if_neg (by simp; omega), if_neg (by simp; omega),
        if_neg (by simp; omega)]
      exact ih

theorem filter_fst_plus_one (E : List (Nat × Nat)) (u : Nat) :
    (E.filter (fun e => e.1 + 1 = u + 1)).length =
      (E.filter (fun e => e.1 = u)).length := by
  have h : E.filter (fun e => e.1 + 1 = u + 1) = E.filter (fun e => e.1 = u) := by
    apply List.filter_congr
    intro e _
    apply decide_eq_decide.mpr
    omega
  rw [h]

theorem rowPrefixSum_countRows {n : Nat} {E : List (Nat × Nat)}
    (hE : ∀ e ∈ E, e.1 < n) :
    ∀ u, rowPrefixSum (countRows n E) u =
      (E.filter (fun e => e.1 < u)).length := by
  intro u
  induction u with
  | zero =>
    rw [rowPrefixSum, List.range_succ, List.range_zero]
    simp only [List.nil_append, List.map_cons, List.map_nil, List.sum_cons,
      List.sum_nil]
    rw [countRows_getD hE 0]
    have h1 : E.filter (fun e => e.1 + 1 = 0) = [] := by
      apply List.filter_eq_nil_iff.mpr
      intro e _
      simp
    have h2 : E.filter (fun e => e.1 < 0) = [] := by
      apply List.filter_eq_nil_iff.mpr
      intro e _
      simp
    rw [h1, h2]
    simp
  | succ u ih =>
    rw [rowPrefixSum_succ, ih, countRows_getD hE (u + 1), filter_fst_plus_one,
      filter_fst_lt_succ]

/-- Characterization of the built row pointers: `row_ptr[u]` is the number
of edges whose source is smaller than `u`. -/
theorem prefixRows_countRows_getD {n : Nat} {E : List (Nat × Nat)}
    (hE : ∀ e ∈ E, e.1 < n) {u : Nat} (hu : u ≤ n) :
    (prefixRows n (countRows n E)).getD u 0 =
      (E.filter (fun e => e.1 < u)).length := by
  rw [prefixRows,
    (prefixRows_invariant (countRows_length n E) n (le_refl _)).2.1 u hu,
    rowPrefixSum_countRows hE]

theorem prefixRows_length {n : Nat} {cnt : List Nat} (hlen : cnt.length = n + 1) :
    (prefixRows n cnt).length = n + 1 :=
  (prefixRows_invariant hlen n (le_refl _)).1

theorem set_append_length_left {α : Type} (A B : List α) (x : α) :
    (A ++ B).set A.length x = A ++ B.set 0 x := by
  induction A with
  | nil => rfl
  | cons a A ih => simp [ih]

theorem filter_lt_eq_complete {c : Nat} :
    ∀ (P : List (Nat × Nat)), (∀ e ∈ P, e.1 ≤ c) →
      (P.filter (fun e => e.1 < c)).length +
        (P.filter (fun e => e.1 = c)).length = P.length := by
  intro P
  induction P with
  | nil => intro _; rfl
  | cons e P ih =>
    intro h
    have he : e.1 ≤ c := h e (List.mem_cons_self _ _)
    have ih' := ih (fun x hx => h x (List.mem_cons_of_mem _ hx))
    rw [List.filter_cons, List.filter_cons]
    by_cases hlt : e.1 < c
    · rw [if_pos (by simpa using hlt), if_neg (by simp; omega)]
      simp only [List.length_cons]
      omega
    · rw [if_neg (by simpa using hlt), if_pos (by simp; omega)]
      simp only [List.length_cons]
      omega

theorem scatter_fold {n : Nat} {D : List (Nat × Nat)}
    (hsorted : List.Pairwise edgeLe D) (hDn : ∀ e ∈ D, e.1 < n) :
    ∀ (R P : List (Nat × Nat)), D = P ++ R →
      ∀ (col head : List Nat),
      col = P.map Prod.snd ++ List.replicate R.length 0 →
      head.length = n →
      (∀ u, u < n → head.getD u 0 =
        (D.filter (fun e => e.1 < u)).length +
          (P.filter (fun e => e.1 = u)).length) →
      (R.foldl (fun (st : List Nat × List Nat) e =>
        (st.1.set (st.2.getD e.1 0) e.2, st.2.set e.1 (st.2.getD e.1 0 + 1)))
        (col, head)).1 = D.map Prod.snd := by
  intro R
  induction R with
  | nil =>
    intro P hPR col head hcol _ _
    rw [List.append_nil] at hPR
    subst hPR
    rw [List.foldl_nil, hcol]
    simp
  | cons f R' ih =>
    intro P hPR col head hcol hhlen hhead
    have hf : f ∈ D := by
      rw [hPR]
      exact List.mem_append.mpr (Or.inr (List.mem_cons_self _ _))
    have hf1 : f.1 < n := hDn f hf
    have hpair := List.pairwise_append.mp (hPR ▸ hsorted)
    have hcross : ∀ x ∈ P, edgeLe x f := fun x hx =>
      hpair.2.2 x hx f (List.mem_cons_self _ _)
    have hfR : ∀ r ∈ R', edgeLe f r := fun r hr =>
      (List.pairwise_cons.mp hpair.2.1).1 r hr
    -- the write cursor of row `f.1` points at position `P.length`
    have hpos : head.getD f.1 0 = P.length := by
      rw [hhead f.1 hf1]
      have hDsplit : D.filter (fun e => e.1 < f.1) =
          P.filter (fun e => e.1 < f.1) := by
        rw [hPR, List.filter_append]
        have hnil : (f :: R').filter (fun e => e.1 < f.1) = [] := by
          apply List.filter_eq_nil_iff.mpr
          intro e he
          rcases List.mem_cons.mp he with rfl | he'
          · simp
          · have := hfR e he'
            unfold edgeLe at this
            simp
            omega
        rw [hnil, List.append_nil]
      rw [hDsplit]
      apply filter_lt_eq_complete
      intro e he
      have := hcross e he
      unfold edgeLe at this
      omega
    rw [List.foldl_cons]
    have hcol' : col.set (head.getD f.1 0) f.2 =
        (P ++ [f]).map Prod.snd ++ List.replicate R'.length 0 := by
      rw [hpos, hcol]
      have hlm : P.length = (P.map Prod.snd).length := by simp
      rw [hlm, set_append_length_left]
      rw [List.length_cons, List.replicate_succ, List.set_cons_zero]
      simp
    have hhead' : ∀ u, u < n →
        (head.set f.1 (head.getD f.1 0 + 1)).getD u 0 =
          (D.filter (fun e => e.1 < u)).length +
            ((P ++ [f]).filter (fun e => e.1 = u)).length := by
      intro u hun
      by_cases huf : u = f.1
      · rw [huf]
        rw [getD_set_self (by omega), hhead f.1 hf1, List.filter_append,
          List.length_append]
        have hone : ([f].filter (fun e => e.1 = f.1)).length = 1 := by simp
        omega
      · rw [getD_set_ne (fun h => huf h.symm), hhead u hun,
          List.filter_append, List.length_append]
        have hzero : ([f].filter (fun e => e.1 = u)).length = 0 := by
          simp only [List.filter_cons, List.filter_nil]
          rw [if_neg (by simp; omega)]
          rfl
        omega
    exact ih (P ++ [f]) (by rw [hPR]; simp) _ _ hcol' (by simp [hhlen]) hhead'

theorem getD_take {α : Type} {l : List α} {k i : Nat} (h : i < k)
    (hi : i < l.length) (d : α) : (l.take k).getD i d = l.getD i d := by
  have hlen : i < (l.take k).length := by
    rw [List.length_take]
    omega
  rw [List.getD_eq_getElem _ _ hlen, List.getD_eq_getElem _ _ hi,
    List.getElem_take]

theorem scatterCols_eq_map_snd {n : Nat} {D : List (Nat × Nat)}
    (hsorted : List.Pairwise edgeLe D) (hDn : ∀ e ∈ D, e.1 < n)
    {rowp : List Nat} (hrplen : rowp.length = n + 1)
    (hrp : ∀ u, u ≤ n → rowp.getD u 0 = (D.filter (fun e => e.1 < u)).length) :
    scatterCols D.length n rowp D = D.map Prod.snd := by
  rw [scatterCols]
  apply scatter_fold hsorted hDn D [] rfl
  · simp
  · rw [List.length_take, hrplen]
    omega
  · intro u hu
    rw [getD_take hu (by omega) 0, hrp u (by omega)]
    simp

/-- A lexicographically sorted edge list splits into the rows below `u`,
the row of `u`, and the rows above `u`. -/
theorem sorted_filter_decomp (u : Nat) :
    ∀ (D : List (Nat × Nat)), List.Pairwise edgeLe D →
      D = D.filter (fun e => e.1 < u) ++ D.filter (fun e => e.1 = u) ++
        D.filter (fun e => u < e.1) := by
  intro D
  induction D with
  | nil => intro _; rfl
  | cons f D' ih =>
    intro hD
    obtain ⟨hhead, hD'⟩ := List.pairwise_cons.mp hD
    have hge : ∀ x ∈ D', f.1 ≤ x.1 := by
      intro x hx
      have := hhead x hx
      unfold edgeLe at this
      omega
    rw [List.filter_cons, List.filter_cons, List.filter_cons]
    rcases Nat.lt_trichotomy f.1 u with h | h | h
    · rw [if_pos (by simpa using h), if_neg (by simp; omega),
        if_neg (by simp; omega)]
      calc f :: D'
          = f :: (D'.filter (fun e => e.1 < u) ++ D'.filter (fun e => e.1 = u)
              ++ D'.filter (fun e => u < e.1)) := by rw [← ih hD']
        _ = _ := by simp
    · have hnil : D'.filter (fun e => e.1 < u) = [] := by
        apply List.filter_eq_nil_iff.mpr
        intro x hx
        have hx1 := hge x hx
        simp only [decide_eq_true_eq]
        omega
      rw [if_neg (by simp; omega), if_pos (by simpa using h),
        if_neg (by simp; omega)]
      have hD'eq := ih hD'
      rw [hnil, List.nil_append] at hD'eq ⊢
      rw [List.cons_append, ← hD'eq]
    · have hnil1 : D'.filter (fun e => e.1 < u) = [] := by
        apply List.filter_eq_nil_iff.mpr
        intro x hx
        have hx1 := hge x hx
        simp only [decide_eq_true_eq]
        omega
      have hnil2 : D'.filter (fun e => e.1 = u) = [] := by
        apply List.filter_eq_nil_iff.mpr
        intro x hx
        have hx1 := hge x hx
        simp only [decide_eq_true_eq]
        omega
      rw [if_neg (by simp; omega), if_neg (by simp; omega),
        if_pos (by simpa using h)]
      have hD'eq := ih hD'
      rw [hnil1, hnil2, List.nil_append, List.nil_append] at hD'eq
      rw [hnil1, hnil2, List.nil_append, List.nil_append, ← hD'eq]

/-- The adjacency slice of vertex `u` in the built graph is exactly the
(ordered) column list of the deduplicated row `u`. -/
theorem load_csr_nbrs {n : Nat} {sif sym drop : Bool}
    {records : List (Int × Int)} {u : Nat} (hu : u < n) :
    (load_csr_from_mtx n sif sym drop records).nbrs u =
      ((dedup_edges drop (sortEdges (collectEdges n sif sym records))).filter
        (fun e => e.1 = u)).map Prod.snd := by
  have hsortedS : List.Sorted edgeLe (sortEdges (collectEdges n sif sym records)) :=
    sortEdges_sorted _
  obtain ⟨hlt, _, hsubD⟩ := dedup_edges_spec drop hsortedS
  set D := dedup_edges drop (sortEdges (collectEdges n sif sym records)) with hDdef
  have hle : List.Pairwise edgeLe D := hlt.imp edgeLe_of_lt
  have hDn : ∀ e ∈ D, e.1 < n := fun e he =>
    (collectEdges_mem e ((sortEdges_mem _).mp (hsubD e he))).1
  have hrp : ∀ w, w ≤ n →
      (load_csr_from_mtx n sif sym drop records).rp w =
        (D.filter (fun e => e.1 < w)).length := by
    intro w hw
    show (prefixRows n (countRows n D)).getD w 0 = _
    exact prefixRows_countRows_getD hDn hw
  have hcol : (load_csr_from_mtx n sif sym drop records).col_idx =
      D.map Prod.snd := by
    show scatterCols D.length n (prefixRows n (countRows n D)) D = _
    exact scatterCols_eq_map_snd hle hDn
      (prefixRows_length (countRows_length n D))
      (fun w hw => prefixRows_countRows_getD hDn hw)
  show ((load_csr_from_mtx n sif sym drop records).col_idx.take
      ((load_csr_from_mtx n sif sym drop records).rp (u + 1))).drop
      ((load_csr_from_mtx n sif sym drop records).rp u) = _
  rw [hcol, hrp (u + 1) (by omega), hrp u (by omega)]
  have hdecomp := sorted_filter_decomp u D hle
  have hmapD : D.map Prod.snd =
      ((D.filter (fun e => e.1 < u)).map Prod.snd ++
        (D.filter (fun e => e.1 = u)).map Prod.snd) ++
        (D.filter (fun e => u < e.1)).map Prod.snd := by
    conv_lhs => rw [hdecomp]
    rw [List.map_append, List.map_append]
  rw [hmapD, filter_fst_lt_succ]
  have hlen2 : (D.filter (fun e => e.1 < u)).length +
      (D.filter (fun e => e.1 = u)).length =
      ((D.filter (fun e => e.1 < u)).map Prod.snd ++
        (D.filter (fun e => e.1 = u)).map Prod.snd).length := by
    simp
  rw [hlen2, List.take_left]
  have hlen3 : (D.filter (fun e => e.1 < u)).length =
      ((D.filter (fun e => e.1 < u)).map Prod.snd).length := by simp
  rw [hlen3, List.drop_left]

/-- **C5**: for every coordinate input accepted by `load_csr_from_mtx` with
`drop_self_loops` enabled, every row slice
`col_idx[row_ptr[u] .. row_ptr[u+1])` of the produced CSR is strictly
increasing (hence sorted and duplicate-free) and never contains `u`. -/
theorem c5_row_slices_sorted_loopfree (n : Nat)
    (symmetric_in_file symmetrize : Bool) (records : List (Int × Int))
    (u : Nat) (hu : u < n) :
    List.Pairwise (· < ·)
      ((load_csr_from_mtx n symmetric_in_file symmetrize true records).nbrs u) ∧
    u ∉ (load_csr_from_mtx n symmetric_in_file symmetrize true records).nbrs u := by
  rw [load_csr_nbrs hu]
  obtain ⟨hlt, hloopD, _⟩ := dedup_edges_spec true
    (sortEdges_sorted (collectEdges n symmetric_in_file symmetrize records))
  constructor
  · rw [List.pairwise_map]
    apply List.Pairwise.imp_of_mem ?_ (hlt.filter _)
    intro a b ha hb hab
    have ha' := List.of_mem_filter ha
    have hb' := List.of_mem_filter hb
    simp only [decide_eq_true_eq] at ha' hb'
    unfold edgeLt at hab
    omega
  · intro hmem
    obtain ⟨e, he, hsnd⟩ := List.mem_map.mp hmem
    have he' := List.of_mem_filter he
    simp only [decide_eq_true_eq] at he'
    have heD := List.mem_of_mem_filter he
    exact hloopD rfl e heD (by rw [he', hsnd])

theorem c5_row_slices_sorted_loopfree_witness :
    0 < 4 ∧
    (List.Pairwise (· < ·)
      ((load_csr_from_mtx 4 false true true [(0, 1), (2, 3)]).nbrs 0) ∧
    0 ∉ (load_csr_from_mtx 4 false true true [(0, 1), (2, 3)]).nbrs 0) :=
  ⟨by decide,
   c5_row_slices_sorted_loopfree 4 false true [(0, 1), (2, 3)] 0 (by decide)⟩

/-- **C7**: the concrete graph built from the edge list `{(0,1),(2,3)}`
with `n = 4` after symmetrization: the number of unique labels is 2, the
sequential LP kernel produces `[0,0,2,2]`, the BFS kernel `[0,0,1,1]`. -/
theorem c7_two_disjoint_edges :
    count_unique_labels (compute_connected_components
      (load_csr_from_mtx 4 false true true [(0, 1), (2, 3)])) 4 = 2 ∧
    count_unique_labels (compute_connected_components_bfs
      (load_csr_from_mtx 4 false true true [(0, 1), (2, 3)])) 4 = 2 ∧
    compute_connected_components
      (load_csr_from_mtx 4 false true true [(0, 1), (2, 3)]) = [0, 0, 2, 2] ∧
    compute_connected_components_bfs
      (load_csr_from_mtx 4 false true true [(0, 1), (2, 3)]) = [0, 0, 1, 1] := by
  decide

/-- **C8 counterexample**: the capacity is not `nz` when the caller does not
request symmetrization but the file is declared symmetric — with `nz = 1`,
`symmetric_in_file = true`, `symmetrize = false` the buffer holds 2 records,
not 1 as claimed. -/
theorem c8_capacity_counterexample :
    edgeCapacity 1 true false = 2 ∧ edgeCapacity 1 true false ≠ 1 := by decide

/-- **C8 (amended)**: the edge buffer is allocated with capacity `nz × 2`
exactly when the caller requests symmetrization **or the file header is
declared symmetric (symmetric / hermitian / skew-symmetric)**, and with
capacity `nz` otherwise. -/
theorem c8_capacity_amended (nz : Nat) (symmetric_in_file symmetrize : Bool) :
    (edgeCapacity nz symmetric_in_file symmetrize =
      if symmetric_in_file || symmetrize then 2 * nz else nz) ∧
    (0 < nz → (edgeCapacity nz symmetric_in_file symmetrize = 2 * nz ↔
      (symmetric_in_file || symmetrize) = true)) := by
  constructor
  · rw [edgeCapacity]
    split <;> ring
  · intro hnz
    rw [edgeCapacity]
    cases symmetric_in_file <;> cases symmetrize <;> simp <;> omega

theorem c8_capacity_amended_witness :
    0 < 3 ∧
    ((edgeCapacity 3 true false = if true || false then 2 * 3 else 3) ∧
      (edgeCapacity 3 true false = 2 * 3 ↔ (true || false) = true)) :=
  ⟨by decide, (c8_capacity_amended 3 true false).1,
    (c8_capacity_amended 3 true false).2 (by decide)⟩

theorem c3_bfs_dense_partition_witness :
    (exGraphTwoPairs.wf ∧ exGraphTwoPairs.symmetric) ∧
    ((∀ v, v < exGraphTwoPairs.n →
      0 ≤ (compute_connected_components_bfs exGraphTwoPairs).getD v 0 ∧
      (compute_connected_components_bfs exGraphTwoPairs).getD v 0 <
        (componentCount exGraphTwoPairs : Int)) ∧
    (∀ d : Int, 0 ≤ d → d < (componentCount exGraphTwoPairs : Int) →
      ∃ v, v < exGraphTwoPairs.n ∧
        (compute_connected_components_bfs exGraphTwoPairs).getD v 0 = d) ∧
    (∀ u v, u < exGraphTwoPairs.n → v < exGraphTwoPairs.n →
      ((compute_connected_components_bfs exGraphTwoPairs).getD u 0 =
        (compute_connected_components_bfs exGraphTwoPairs).getD v 0 ↔
          exGraphTwoPairs.reach u v))) :=
  ⟨⟨by decide, by decide⟩,
   c3_bfs_dense_partition exGraphTwoPairs (by decide) (by decide)⟩

/-! ### C10: BFS queue safety (src/cc.c:209-252) -/

/-- **C10**: in `compute_connected_components_bfs`, every vertex is enqueued
at most once during a BFS run: a vertex is enqueued only while its label is
`-1`, and its label is simultaneously overwritten with the non-negative
`current_label`, so the queue entries are pairwise distinct in-range
vertices.  Hence the write index `back` (the model queue's length) never
exceeds `n` — the queue only grows, so the final length bounds every
intermediate value of `back` — and the read index `front` never exceeds
`back`, making every access `queue[front++]` / `queue[back++]` of the
length-`n` queue array in bounds. -/
theorem c10_bfs_queue_enqueued_once (G : CSRGraph) (hwf : G.wf) (cur : Int)
    (L0 : List Int) (stc : Nat) (hcur : 0 ≤ cur) (hstc : stc < G.n)
    (hlen : L0.length = G.n) :
    (bfsLoop G cur G.n ⟨L0.set stc cur, [stc], 0⟩).queue.Nodup ∧
    (bfsLoop G cur G.n ⟨L0.set stc cur, [stc], 0⟩).queue.length ≤ G.n ∧
    (∀ v ∈ (bfsLoop G cur G.n ⟨L0.set stc cur, [stc], 0⟩).queue,
      v < G.n ∧
        (bfsLoop G cur G.n ⟨L0.set stc cur, [stc], 0⟩).labels.getD v 0 = cur) ∧
    (bfsLoop G cur G.n ⟨L0.set stc cur, [stc], 0⟩).front ≤
      (bfsLoop G cur G.n ⟨L0.set stc cur, [stc], 0⟩).queue.length := by
  have h0 : BfsInv G cur L0 stc ⟨L0.set stc cur, [stc], 0⟩ := bfsInv_init hstc hlen
  obtain ⟨hinv, _, _⟩ :=
    bfsLoop_spec hwf hcur G.n ⟨L0.set stc cur, [stc], 0⟩ h0 (by omega)
  refine ⟨hinv.q_nodup, hinv.queue_le, ?_, hinv.front_le⟩
  intro v hv
  refine ⟨hinv.q_mem v hv, ?_⟩
  rcases hinv.labeled v (hinv.q_mem v hv) with ⟨_, hl⟩ | ⟨hq, _⟩
  · exact hl
  · exact absurd hv hq

/-- Witness for C10: the BFS launched from source `0` with counter `0` on
the all-unvisited 4-vertex two-pairs graph. -/
theorem c10_bfs_queue_enqueued_once_witness :
    0 < exGraphTwoPairs.n ∧
    ((bfsLoop exGraphTwoPairs 0 exGraphTwoPairs.n
        ⟨(List.replicate 4 (-1 : Int)).set 0 0, [0], 0⟩).queue.Nodup ∧
      (bfsLoop exGraphTwoPairs 0 exGraphTwoPairs.n
        ⟨(List.replicate 4 (-1 : Int)).set 0 0, [0], 0⟩).queue.length ≤
          exGraphTwoPairs.n ∧
      (∀ v ∈ (bfsLoop exGraphTwoPairs 0 exGraphTwoPairs.n
          ⟨(List.replicate 4 (-1 : Int)).set 0 0, [0], 0⟩).queue,
        v < exGraphTwoPairs.n ∧
          (bfsLoop exGraphTwoPairs 0 exGraphTwoPairs.n
            ⟨(List.replicate 4 (-1 : Int)).set 0 0, [0], 0⟩).labels.getD v 0 = 0) ∧
      (bfsLoop exGraphTwoPairs 0 exGraphTwoPairs.n
        ⟨(List.replicate 4 (-1 : Int)).set 0 0, [0], 0⟩).front ≤
        (bfsLoop exGraphTwoPairs 0 exGraphTwoPairs.n
          ⟨(List.replicate 4 (-1 : Int)).set 0 0, [0], 0⟩).queue.length) :=
  ⟨by decide,
    c10_bfs_queue_enqueued_once exGraphTwoPairs (by decide) 0
      (List.replicate 4 (-1)) 0 (by decide) (by decide) (by decide)⟩

/-! ### Afforest union-find kernel (src/cc_pthreads_afforest.c)

The kernel is modelled at union/find atomicity: each `uf_find` / `uf_union`
call executes without interference, and the four barrier-separated phases
execute their per-vertex (resp. per-edge) work items in an arbitrary
interleaved order, covering every `num_threads ≥ 1` schedule of the static
block partition.  Under this atomicity the root re-check and the CAS inside
`uf_union` always succeed, so its retry loop runs exactly once. -/

/-- `uf_find` (src/cc_pthreads_afforest.c:59-74): find with path splitting,
fueled; the kernel's callers use fuel `n`, proven sufficient because parent
pointers strictly decrease along a chain.  Returns the root together with
the updated (path-split) parent array.  The source keeps `pp` instead of
re-reading `parent[p]` after the write; since the write targets the old
position `x ≠ p`, re-reading yields the same value, so the recursion below
is exact. -/
def uf_find : Nat → List Nat → Nat → Nat × List Nat
  | 0, parent, x => (x, parent)
  | fuel + 1, parent, x =>
    if parent.getD x 0 = x then (x, parent)
    else
      uf_find fuel
        (if parent.getD (parent.getD x 0) 0 = parent.getD x 0 then parent
         else parent.set x (parent.getD (parent.getD x 0) 0))
        (parent.getD x 0)

theorem uf_find_succ (fuel : Nat) (parent : List Nat) (x : Nat) :
    uf_find (fuel + 1) parent x =
      if parent.getD x 0 = x then (x, parent)
      else
        uf_find fuel
          (if parent.getD (parent.getD x 0) 0 = parent.getD x 0 then parent
           else parent.set x (parent.getD (parent.getD x 0) 0))
          (parent.getD x 0) := rfl

/-- `uf_union` (src/cc_pthreads_afforest.c:77-114): find both roots, return
if they agree, otherwise hook the larger-id root under the smaller-id root
(`rx > ry` after the swap, `parent[rx] = ry`). -/
def uf_union (n : Nat) (parent : List Nat) (x y : Nat) : List Nat :=
  let fx := uf_find n parent x
  let fy := uf_find n fx.2 y
  if fx.1 = fy.1 then fy.2
  else fy.2.set (max fx.1 fy.1) (min fx.1 fy.1)

theorem uf_union_eq (n : Nat) (parent : List Nat) (x y : Nat) :
    uf_union n parent x y =
      if (uf_find n parent x).1 = (uf_find n (uf_find n parent x).2 y).1
      then (uf_find n (uf_find n parent x).2 y).2
      else (uf_find n (uf_find n parent x).2 y).2.set
        (max (uf_find n parent x).1 (uf_find n (uf_find n parent x).2 y).1)
        (min (uf_find n parent x).1 (uf_find n (uf_find n parent x).2 y).1) := rfl

/-- One step of `uf_compress_range` (src/cc_pthreads_afforest.c:117-126):
`parent[i] = uf_find(parent, i)`. -/
def compressStep (n : Nat) (par : List Nat) (i : Nat) : List Nat :=
  (uf_find n par i).2.set i (uf_find n par i).1

/-- A whole compression phase over an arbitrary interleaving `order` of the
threads' index ranges. -/
def uf_compress (n : Nat) (order : List Nat) (parent : List Nat) : List Nat :=
  order.foldl (compressStep n) parent

/-- One step of the sampling phase (src/cc_pthreads_afforest.c:151-161):
if vertex `u` has a neighbor, union it with its first neighbor
`col_idx[row_ptr[u]]`, guarded by the source's `v >= 0 && v < n` check. -/
def sampleStep (n : Nat) (G : CSRGraph) (par : List Nat) (u : Nat) : List Nat :=
  if (G.nbrs u).isEmpty then par
  else if (G.nbrs u).headD 0 < n then uf_union n par u ((G.nbrs u).headD 0)
  else par

/-- The sampling phase over an arbitrary interleaving `order` of the
threads' vertex ranges. -/
def afforestSample (n : Nat) (G : CSRGraph) (order : List Nat)
    (parent : List Nat) : List Nat :=
  order.foldl (sampleStep n G) parent

/-- The work items of the full edge pass (src/cc_pthreads_afforest.c:174-186)
in row-major order: one pair `(u, v)` for every stored edge with `v > u`. -/
def afforestEdgePairs (G : CSRGraph) : List (Nat × Nat) :=
  (List.range G.n).flatMap
    (fun u => ((G.nbrs u).filter (fun v => decide (u < v))).map (fun v => (u, v)))

/-- The full edge pass over an arbitrary interleaving `pairs` of the
threads' edge work items. -/
def afforestEdges (n : Nat) (pairs : List (Nat × Nat)) (parent : List Nat) :
    List Nat :=
  pairs.foldl (fun par e => uf_union n par e.1 e.2) parent

/-- `compute_connected_components_pthreads_afforest`
(src/cc_pthreads_afforest.c:207-277): `parent[v] = v`, sampling phase,
compression, full edge phase, final compression, `labels[i] = parent[i]`.
The lists `o1, o2, o3, o4` are the interleaved orders in which the four
barrier-separated phases execute their work items. -/
def compute_connected_components_pthreads_afforest (G : CSRGraph)
    (o1 o2 : List Nat) (o3 : List (Nat × Nat)) (o4 : List Nat) : List Nat :=
  uf_compress G.n o4
    (afforestEdges G.n o3
      (uf_compress G.n o2
        (afforestSample G.n G o1 (List.range G.n))))

/-- Union-find well-formedness: the parent array has length `n` and parent
pointers never increase (initially `parent[v] = v`; hooking and path
splitting only ever write smaller values). -/
def ParentWF (n : Nat) (parent : List Nat) : Prop :=
  parent.length = n ∧ ∀ v, v < n → parent.getD v 0 ≤ v

/-- Parent pointers stay inside the connected component. -/
def ParentReach (G : CSRGraph) (parent : List Nat) : Prop :=
  ∀ v, v < G.n → G.reach v (parent.getD v 0)

/-- The canonical root of `x`: follow parent pointers, with fuel `x + 1`,
which suffices because pointers never increase. -/
def rootOf (parent : List Nat) : Nat → Nat → Nat
  | 0, x => x
  | fuel + 1, x =>
    if parent.getD x 0 = x then x else rootOf parent fuel (parent.getD x 0)

def root (parent : List Nat) (x : Nat) : Nat := rootOf parent (x + 1) x

theorem rootOf_succ (parent : List Nat) (f x : Nat) :
    rootOf parent (f + 1) x =
      if parent.getD x 0 = x then x
      else rootOf parent f (parent.getD x 0) := rfl

theorem rootOf_congr {n : Nat} {parent : List Nat} (hwf : ParentWF n parent) :
    ∀ x, x < n → ∀ f f', x < f → x < f' →
      rootOf parent f x = rootOf parent f' x := by
  intro x
  induction x using Nat.strong_induction_on with
  | _ x ih =>
    intro hx f f' hf hf'
    obtain ⟨g, rfl⟩ : ∃ g, f = g + 1 := ⟨f - 1, by omega⟩
    obtain ⟨g', rfl⟩ : ∃ g, f' = g + 1 := ⟨f' - 1, by omega⟩
    rw [rootOf_succ, rootOf_succ]
    by_cases hp : parent.getD x 0 = x
    · rw [if_pos hp, if_pos hp]
    · rw [if_neg hp, if_neg hp]
      have hplt : parent.getD x 0 < x := lt_of_le_of_ne (hwf.2 x hx) hp
      exact ih (parent.getD x 0) hplt (by omega) g g' (by omega) (by omega)

theorem root_eq_self {parent : List Nat} {x : Nat} (h : parent.getD x 0 = x) :
    root parent x = x := by
  show rootOf parent (x + 1) x = x
  rw [rootOf_succ, if_pos h]

/-- Unfolding the canonical root by one parent step. -/
theorem root_step {n : Nat} {parent : List Nat} (hwf : ParentWF n parent)
    {x : Nat} (hx : x < n) (hne : parent.getD x 0 ≠ x) :
    root parent x = root parent (parent.getD x 0) := by
  have hplt : parent.getD x 0 < x := lt_of_le_of_ne (hwf.2 x hx) hne
  show rootOf parent (x + 1) x = rootOf parent (parent.getD x 0 + 1) (parent.getD x 0)
  rw [rootOf_succ, if_neg hne]
  exact rootOf_congr hwf (parent.getD x 0) (by omega) x (parent.getD x 0 + 1)
    (by omega) (by omega)

theorem root_le {n : Nat} {parent : List Nat} (hwf : ParentWF n parent) :
    ∀ x, x < n → root parent x ≤ x := by
  intro x
  induction x using Nat.strong_induction_on with
  | _ x ih =>
    intro hx
    by_cases hp : parent.getD x 0 = x
    · rw [root_eq_self hp]
    · have hplt : parent.getD x 0 < x := lt_of_le_of_ne (hwf.2 x hx) hp
      rw [root_step hwf hx hp]
      exact le_trans (ih _ hplt (by omega)) (by omega)

/-- The canonical root is a fixpoint of the parent map. -/
theorem root_fix {n : Nat} {parent : List Nat} (hwf : ParentWF n parent) :
    ∀ x, x < n → parent.getD (root parent x) 0 = root parent x := by
  intro x
  induction x using Nat.strong_induction_on with
  | _ x ih =>
    intro hx
    by_cases hp : parent.getD x 0 = x
    · rw [root_eq_self hp]; exact hp
    · have hplt : parent.getD x 0 < x := lt_of_le_of_ne (hwf.2 x hx) hp
      rw [root_step hwf hx hp]
      exact ih _ hplt (by omega)

theorem root_idem {n : Nat} {parent : List Nat} (hwf : ParentWF n parent)
    {x : Nat} (hx : x < n) : root parent (root parent x) = root parent x :=
  root_eq_self (root_fix hwf x hx)

/-- A vertex that is its own canonical root is a direct fixpoint. -/
theorem parent_self_of_root_eq {n : Nat} {parent : List Nat}
    (hwf : ParentWF n parent) {x : Nat} (hx : x < n)
    (h : root parent x = x) : parent.getD x 0 = x := by
  by_contra hne
  have hplt : parent.getD x 0 < x := lt_of_le_of_ne (hwf.2 x hx) hne
  have hstep := root_step hwf hx hne
  have hle := root_le hwf (parent.getD x 0) (by omega)
  omega

/-- The canonical root stays inside the connected component. -/
theorem root_reach {G : CSRGraph} {parent : List Nat}
    (hwf : ParentWF G.n parent) (hre : ParentReach G parent) :
    ∀ x, x < G.n → G.reach x (root parent x) := by
  intro x
  induction x using Nat.strong_induction_on with
  | _ x ih =>
    intro hx
    by_cases hp : parent.getD x 0 = x
    · rw [root_eq_self hp]
      exact Relation.ReflTransGen.refl
    · have hplt : parent.getD x 0 < x := lt_of_le_of_ne (hwf.2 x hx) hp
      rw [root_step hwf hx hp]
      exact Relation.ReflTransGen.trans (hre x hx) (ih _ hplt (by omega))

theorem ParentWF.set_wf {n : Nat} {parent : List Nat} (hwf : ParentWF n parent)
    {r s : Nat} (hr : r < n) (hs : s ≤ r) : ParentWF n (parent.set r s) := by
  refine ⟨by rw [List.length_set]; exact hwf.1, ?_⟩
  intro v hv
  by_cases hvr : v = r
  · subst hvr
    rw [getD_set_self (by rw [hwf.1]; exact hr)]
    exact hs
  · rw [getD_set_ne (fun h => hvr h.symm)]
    exact hwf.2 v hv

/-- Writing at position `r` does not change the root of any vertex below
`r`, since pointer chains never increase. -/
theorem root_set_of_lt {n : Nat} {parent : List Nat} (hwf : ParentWF n parent)
    {r s : Nat} (hwf' : ParentWF n (parent.set r s)) :
    ∀ v, v < n → v < r → root (parent.set r s) v = root parent v := by
  intro v
  induction v using Nat.strong_induction_on with
  | _ v ih =>
    intro hv hvr
    have hne : r ≠ v := by omega
    have hpv : (parent.set r s).getD v 0 = parent.getD v 0 := getD_set_ne hne _ _
    by_cases hp : parent.getD v 0 = v
    · rw [root_eq_self hp, root_eq_self (by rw [hpv]; exact hp)]
    · have hplt : parent.getD v 0 < v := lt_of_le_of_ne (hwf.2 v hv) hp
      rw [root_step hwf hv hp, root_step hwf' hv (by rw [hpv]; exact hp), hpv]
      exact ih _ hplt (by omega) (by omega)

/-- Path splitting (`parent[x] = parent[parent[x]]` for a non-root `x`)
preserves the canonical root of every vertex. -/
theorem root_set_ancestor {n : Nat} {parent : List Nat} (hwf : ParentWF n parent)
    {x : Nat} (hx : x < n) (hne : parent.getD x 0 ≠ x) :
    ∀ v, v < n →
      root (parent.set x (parent.getD (parent.getD x 0) 0)) v = root parent v := by
  have hplt : parent.getD x 0 < x := lt_of_le_of_ne (hwf.2 x hx) hne
  have hpple : parent.getD (parent.getD x 0) 0 ≤ parent.getD x 0 :=
    hwf.2 (parent.getD x 0) (by omega)
  have hwf' : ParentWF n (parent.set x (parent.getD (parent.getD x 0) 0)) :=
    hwf.set_wf hx (by omega)
  have hstep1 : root parent x = root parent (parent.getD x 0) :=
    root_step hwf hx hne
  have hstep2 : root parent (parent.getD x 0) =
      root parent (parent.getD (parent.getD x 0) 0) := by
    by_cases hq : parent.getD (parent.getD x 0) 0 = parent.getD x 0
    · rw [hq]
    · exact root_step hwf (by omega) hq
  intro v
  induction v using Nat.strong_induction_on with
  | _ v ih =>
    intro hv
    by_cases hvx : v = x
    · rw [hvx]
      have hsv : (parent.set x (parent.getD (parent.getD x 0) 0)).getD x 0 =
          parent.getD (parent.getD x 0) 0 :=
        getD_set_self (by rw [hwf.1]; exact hx) _ _
      have hppne : parent.getD (parent.getD x 0) 0 ≠ x := by omega
      rw [root_step hwf' hx (by rw [hsv]; exact hppne), hsv,
        ih (parent.getD (parent.getD x 0) 0) (by omega) (by omega),
        ← hstep2, ← hstep1]
    · have hpv : (parent.set x (parent.getD (parent.getD x 0) 0)).getD v 0 =
          parent.getD v 0 := getD_set_ne (fun h => hvx h.symm) _ _
      by_cases hp : parent.getD v 0 = v
      · rw [root_eq_self hp, root_eq_self (by rw [hpv]; exact hp)]
      · have hplt' : parent.getD v 0 < v := lt_of_le_of_ne (hwf.2 v hv) hp
        rw [root_step hwf hv hp, root_step hwf' hv (by rw [hpv]; exact hp), hpv]
        exact ih _ hplt' (by omega)

/-- Hooking a root `r` under a smaller vertex `s` redirects exactly the
vertices rooted at `r` to the root of `s` and leaves all other roots
unchanged. -/
theorem root_set_hook {n : Nat} {parent : List Nat} (hwf : ParentWF n parent)
    {r s : Nat} (hr : r < n) (hroot : parent.getD r 0 = r) (hs : s < r) :
    ∀ v, v < n → root (parent.set r s) v =
      if root parent v = r then root parent s else root parent v := by
  have hwf' : ParentWF n (parent.set r s) := hwf.set_wf hr (by omega)
  intro v
  induction v using Nat.strong_induction_on with
  | _ v ih =>
    intro hv
    by_cases hvr : v = r
    · rw [hvr]
      have hsv : (parent.set r s).getD r 0 = s :=
        getD_set_self (by rw [hwf.1]; exact hr) _ _
      rw [root_step hwf' hr (by rw [hsv]; omega), hsv,
        root_set_of_lt hwf hwf' s (by omega) hs, root_eq_self hroot, if_pos rfl]
    · have hpv : (parent.set r s).getD v 0 = parent.getD v 0 :=
        getD_set_ne (fun h => hvr h.symm) _ _
      by_cases hp : parent.getD v 0 = v
      · rw [root_eq_self hp, root_eq_self (by rw [hpv]; exact hp), if_neg hvr]
      · have hplt : parent.getD v 0 < v := lt_of_le_of_ne (hwf.2 v hv) hp
        rw [root_step hwf hv hp, root_step hwf' hv (by rw [hpv]; exact hp), hpv]
        exact ih _ hplt (by omega)

/-- Pointer jumping `parent[i] = root(i)` preserves the canonical root of
every vertex. -/
theorem root_set_self_root {n : Nat} {parent : List Nat} (hwf : ParentWF n parent)
    {i : Nat} (hi : i < n) :
    ∀ v, v < n → root (parent.set i (root parent i)) v = root parent v := by
  have hwf' : ParentWF n (parent.set i (root parent i)) :=
    hwf.set_wf hi (root_le hwf i hi)
  intro v
  induction v using Nat.strong_induction_on with
  | _ v ih =>
    intro hv
    by_cases hvi : v = i
    · rw [hvi]
      have hsv : (parent.set i (root parent i)).getD i 0 = root parent i :=
        getD_set_self (by rw [hwf.1]; exact hi) _ _
      by_cases hri : root parent i = i
      · rw [root_eq_self (by rw [hsv]; exact hri), hri]
      · have hrlt : root parent i < i :=
          lt_of_le_of_ne (root_le hwf i hi) hri
        rw [root_step hwf' hi (by rw [hsv]; exact hri), hsv,
          root_set_of_lt hwf hwf' (root parent i) (by omega) hrlt,
          root_idem hwf hi]
    · have hpv : (parent.set i (root parent i)).getD v 0 = parent.getD v 0 :=
        getD_set_ne (fun h => hvi h.symm) _ _
      by_cases hp : parent.getD v 0 = v
      · rw [root_eq_self hp, root_eq_self (by rw [hpv]; exact hp)]
      · have hplt : parent.getD v 0 < v := lt_of_le_of_ne (hwf.2 v hv) hp
        rw [root_step hwf hv hp, root_step hwf' hv (by rw [hpv]; exact hp), hpv]
        exact ih _ hplt (by omega)

/-- Full specification of `uf_find` with fuel `> x`: it returns the
canonical root of `x`; the path-split array is still well-formed, has
exactly the same canonical roots and component-respecting pointers, and
every entry that already pointed directly at its root is untouched. -/
theorem uf_find_spec {n : Nat} :
    ∀ (fuel : Nat) (parent : List Nat) (x : Nat), ParentWF n parent → x < n →
      x < fuel →
      (uf_find fuel parent x).1 = root parent x ∧
      ParentWF n (uf_find fuel parent x).2 ∧
      (∀ v, v < n → root (uf_find fuel parent x).2 v = root parent v) ∧
      (∀ G : CSRGraph, G.n = n → ParentReach G parent →
        ParentReach G (uf_find fuel parent x).2) ∧
      (∀ i, i < n → parent.getD i 0 = root parent i →
        (uf_find fuel parent x).2.getD i 0 = parent.getD i 0) := by
  intro fuel
  induction fuel with
  | zero => intro parent x _ _ hf; omega
  | succ fuel ih =>
    intro parent x hwf hx hf
    by_cases hp : parent.getD x 0 = x
    · rw [uf_find_succ, if_pos hp]
      exact ⟨(root_eq_self hp).symm, hwf, fun v _ => rfl, fun G _ hre => hre,
        fun i _ _ => rfl⟩
    · rw [uf_find_succ, if_neg hp]
      have hplt : parent.getD x 0 < x := lt_of_le_of_ne (hwf.2 x hx) hp
      have hstep : root parent x = root parent (parent.getD x 0) :=
        root_step hwf hx hp
      by_cases hq : parent.getD (parent.getD x 0) 0 = parent.getD x 0
      · rw [if_pos hq]
        obtain ⟨i1, i2, i3, i4, i5⟩ :=
          ih parent (parent.getD x 0) hwf (by omega) (by omega)
        exact ⟨by rw [i1, ← hstep], i2, i3, i4, i5⟩
      · rw [if_neg hq]
        have hpple : parent.getD (parent.getD x 0) 0 ≤ parent.getD x 0 :=
          hwf.2 (parent.getD x 0) (by omega)
        have hwf' : ParentWF n (parent.set x (parent.getD (parent.getD x 0) 0)) :=
          hwf.set_wf hx (by omega)
        have hroots := root_set_ancestor hwf hx hp
        obtain ⟨i1, i2, i3, i4, i5⟩ :=
          ih (parent.set x (parent.getD (parent.getD x 0) 0))
            (parent.getD x 0) hwf' (by omega) (by omega)
        refine ⟨?_, i2, ?_, ?_, ?_⟩
        · rw [i1, hroots (parent.getD x 0) (by omega), ← hstep]
        · intro v hv
          rw [i3 v hv, hroots v hv]
        · intro G hGn hre
          refine i4 G hGn ?_
          intro v hv
          by_cases hvx : v = x
          · rw [hvx, getD_set_self (by rw [hwf.1]; exact hx)]
            have h1 : G.reach x (parent.getD x 0) := hre x (by omega)
            have h2 : G.reach (parent.getD x 0) (parent.getD (parent.getD x 0) 0) :=
              hre (parent.getD x 0) (by omega)
            exact Relation.ReflTransGen.trans h1 h2
          · rw [getD_set_ne (fun h => hvx h.symm)]
            exact hre v hv
        · intro i hi hdir
          have hix : i ≠ x := by
            intro hixe
            rw [hixe] at hdir
            have := root_fix hwf x hx
            rw [← hdir] at this
            exact hq this
          have hunch : (parent.set x (parent.getD (parent.getD x 0) 0)).getD i 0 =
              parent.getD i 0 := getD_set_ne (fun h => hix h.symm) _ _
          rw [i5 i hi (by rw [hunch, hroots i hi]; exact hdir), hunch]


/-- Specification of `uf_union`: the result is well-formed, its canonical
roots redirect exactly the class of the larger root onto the smaller root
(the hook direction of the source), and pointers stay inside components
provided `x` and `y` are connected. -/
theorem uf_union_spec {n : Nat} {parent : List Nat} (hwf : ParentWF n parent)
    {x y : Nat} (hx : x < n) (hy : y < n) :
    ParentWF n (uf_union n parent x y) ∧
    (∀ v, v < n → root (uf_union n parent x y) v =
      if root parent v = max (root parent x) (root parent y) ∧
          root parent x ≠ root parent y
        then min (root parent x) (root parent y)
        else root parent v) ∧
    (∀ G : CSRGraph, G.n = n → G.wf → G.symmetric → ParentReach G parent →
      G.reach x y → ParentReach G (uf_union n parent x y)) := by
  obtain ⟨f1a, f1b, f1c, f1d, _⟩ := uf_find_spec n parent x hwf hx hx
  obtain ⟨f2a, f2b, f2c, f2d, _⟩ :=
    uf_find_spec n (uf_find n parent x).2 y f1b hy hy
  have hry : (uf_find n (uf_find n parent x).2 y).1 = root parent y := by
    rw [f2a, f1c y hy]
  rw [uf_union_eq]
  by_cases heq : (uf_find n parent x).1 = (uf_find n (uf_find n parent x).2 y).1
  · rw [if_pos heq]
    have hxy : root parent x = root parent y := by
      rw [← f1a, ← hry]; exact heq
    refine ⟨f2b, ?_, ?_⟩
    · intro v hv
      rw [f2c v hv, f1c v hv, if_neg (fun h => h.2 hxy)]
    · intro G hGn _ _ hre _
      exact f2d G hGn (f1d G hGn hre)
  · rw [if_neg heq, f1a, hry]
    have hxyne : root parent x ≠ root parent y := by
      rw [← f1a, ← hry]; exact heq
    have hrxlt : root parent x < n := lt_of_le_of_lt (root_le hwf x hx) hx
    have hrylt : root parent y < n := lt_of_le_of_lt (root_le hwf y hy) hy
    have hroots2 : ∀ v, v < n →
        root (uf_find n (uf_find n parent x).2 y).2 v = root parent v := by
      intro v hv
      rw [f2c v hv, f1c v hv]
    have hmaxlt : max (root parent x) (root parent y) < n := by
      rcases max_choice (root parent x) (root parent y) with hm | hm <;> omega
    have hminmax : min (root parent x) (root parent y) <
        max (root parent x) (root parent y) := by
      rcases Nat.le_total (root parent x) (root parent y) with hle | hle
      · rw [Nat.max_eq_right hle, Nat.min_eq_left hle]; omega
      · rw [Nat.max_eq_left hle, Nat.min_eq_right hle]; omega
    have hmaxroot : root parent (max (root parent x) (root parent y)) =
        max (root parent x) (root parent y) := by
      rcases max_choice (root parent x) (root parent y) with hm | hm <;> rw [hm]
      · exact root_idem hwf hx
      · exact root_idem hwf hy
    have hminroot : root parent (min (root parent x) (root parent y)) =
        min (root parent x) (root parent y) := by
      rcases min_choice (root parent x) (root parent y) with hm | hm <;> rw [hm]
      · exact root_idem hwf hx
      · exact root_idem hwf hy
    have hfix : (uf_find n (uf_find n parent x).2 y).2.getD
        (max (root parent x) (root parent y)) 0 =
          max (root parent x) (root parent y) := by
      apply parent_self_of_root_eq f2b hmaxlt
      rw [hroots2 _ hmaxlt]
      exact hmaxroot
    have hhook := root_set_hook f2b hmaxlt hfix hminmax
    refine ⟨f2b.set_wf hmaxlt (by omega), ?_, ?_⟩
    · intro v hv
      rw [hhook v hv, hroots2 v hv,
        hroots2 (min (root parent x) (root parent y)) (by omega), hminroot]
      by_cases hc : root parent v = max (root parent x) (root parent y)
      · rw [if_pos hc, if_pos ⟨hc, hxyne⟩]
      · rw [if_neg hc, if_neg (fun h => hc h.1)]
    · intro G hGn hgwf hgsym hre hrxy
      have hwfG : ParentWF G.n parent := by rw [hGn]; exact hwf
      have hreachx : G.reach x (root parent x) :=
        root_reach hwfG hre x (by omega)
      have hreachy : G.reach y (root parent y) :=
        root_reach hwfG hre y (by omega)
      have hre2 : ParentReach G (uf_find n (uf_find n parent x).2 y).2 :=
        f2d G hGn (f1d G hGn hre)
      have hlen2 : (uf_find n (uf_find n parent x).2 y).2.length = n := f2b.1
      intro v hv
      by_cases hvm : v = max (root parent x) (root parent y)
      · rw [hvm, getD_set_self (by rw [hlen2]; exact hmaxlt)]
        rcases Nat.le_total (root parent x) (root parent y) with hle | hle
        · rw [Nat.max_eq_right hle, Nat.min_eq_left hle]
          exact Relation.ReflTransGen.trans
            (reach_symm hgwf hgsym hreachy)
            (Relation.ReflTransGen.trans (reach_symm hgwf hgsym hrxy) hreachx)
        · rw [Nat.max_eq_left hle, Nat.min_eq_right hle]
          exact Relation.ReflTransGen.trans
            (reach_symm hgwf hgsym hreachx)
            (Relation.ReflTransGen.trans hrxy hreachy)
      · rw [getD_set_ne (fun h => hvm h.symm)]
        exact hre2 v hv

/-- One compression step preserves well-formedness, canonical roots and
component membership, makes `parent[i]` point directly at its root, and
keeps every entry that already pointed directly at its root. -/
theorem compressStep_spec {n : Nat} {parent : List Nat} (hwf : ParentWF n parent)
    {i : Nat} (hi : i < n) :
    ParentWF n (compressStep n parent i) ∧
    (∀ v, v < n → root (compressStep n parent i) v = root parent v) ∧
    (∀ G : CSRGraph, G.n = n → ParentReach G parent →
      ParentReach G (compressStep n parent i)) ∧
    (compressStep n parent i).getD i 0 = root parent i ∧
    (∀ j, j < n → parent.getD j 0 = root parent j →
      (compressStep n parent i).getD j 0 = parent.getD j 0) := by
  obtain ⟨fa, fb, fc, fd, fe⟩ := uf_find_spec n parent i hwf hi hi
  have hstep : compressStep n parent i =
      (uf_find n parent i).2.set i (uf_find n parent i).1 := rfl
  rw [hstep, fa]
  refine ⟨fb.set_wf hi (root_le hwf i hi), ?_, ?_, ?_, ?_⟩
  · intro v hv
    rw [← fc i hi, root_set_self_root fb hi v hv, fc v hv]
  · intro G hGn hre
    have hre2 := fd G hGn hre
    intro v hv
    by_cases hvi : v = i
    · rw [hvi, getD_set_self (by rw [fb.1]; exact hi)]
      have hwfG : ParentWF G.n parent := by rw [hGn]; exact hwf
      exact root_reach hwfG hre i (by omega)
    · rw [getD_set_ne (fun h => hvi h.symm)]
      exact hre2 v hv
  · exact getD_set_self (by rw [fb.1]; exact hi) _ _
  · intro j hj hdir
    by_cases hji : j = i
    · rw [hji, getD_set_self (by rw [fb.1]; exact hi)]
      rw [hji] at hdir
      exact hdir.symm
    · rw [getD_set_ne (fun h => hji h.symm)]
      exact fe j hj hdir

/-- A whole compression phase preserves well-formedness, canonical roots
and component membership, and afterwards every processed index points
directly at its (phase-entry) root. -/
theorem uf_compress_spec {n : Nat} (order : List Nat) :
    ∀ parent, ParentWF n parent → (∀ i ∈ order, i < n) →
      ParentWF n (uf_compress n order parent) ∧
      (∀ v, v < n → root (uf_compress n order parent) v = root parent v) ∧
      (∀ G : CSRGraph, G.n = n → ParentReach G parent →
        ParentReach G (uf_compress n order parent)) ∧
      (∀ j, j < n → parent.getD j 0 = root parent j →
        (uf_compress n order parent).getD j 0 = parent.getD j 0) ∧
      (∀ i ∈ order, (uf_compress n order parent).getD i 0 = root parent i) := by
  induction order with
  | nil =>
    intro parent hpwf _
    exact ⟨hpwf, fun v _ => rfl, fun G _ hre => hre, fun j _ _ => rfl,
      fun i hi => absurd hi (List.not_mem_nil i)⟩
  | cons i rest ih =>
    intro parent hpwf hbd
    have hi : i < n := hbd i (List.mem_cons_self i rest)
    obtain ⟨c1, c2, c3, c4, c5⟩ := compressStep_spec hpwf hi
    have hstep : uf_compress n (i :: rest) parent =
        uf_compress n rest (compressStep n parent i) := rfl
    rw [hstep]
    obtain ⟨r1, r2, r3, r4, r5⟩ := ih (compressStep n parent i) c1
      (fun j hj => hbd j (List.mem_cons_of_mem i hj))
    refine ⟨r1, ?_, ?_, ?_, ?_⟩
    · intro v hv; rw [r2 v hv, c2 v hv]
    · intro G hGn hre; exact r3 G hGn (c3 G hGn hre)
    · intro j hj hdir
      rw [r4 j hj (by rw [c5 j hj hdir, c2 j hj]; exact hdir), c5 j hj hdir]
    · intro j hj
      rcases List.mem_cons.mp hj with hje | hj'
      · rw [hje, r4 i hi (by rw [c4, c2 i hi])]
        exact c4
      · rw [r5 j hj', c2 j (hbd j (List.mem_cons_of_mem i hj'))]

/-- One sampling step preserves the union-find invariants. -/
theorem sampleStep_inv {n : Nat} {G : CSRGraph} (hGn : G.n = n) (hgwf : G.wf)
    (hgsym : G.symmetric) {parent : List Nat} (hpwf : ParentWF n parent)
    (hpre : ParentReach G parent) (u : Nat) :
    ParentWF n (sampleStep n G parent u) ∧
      ParentReach G (sampleStep n G parent u) := by
  unfold sampleStep
  by_cases hemp : (G.nbrs u).isEmpty
  · rw [if_pos hemp]; exact ⟨hpwf, hpre⟩
  · rw [if_neg hemp]
    by_cases hv : (G.nbrs u).headD 0 < n
    · rw [if_pos hv]
      have hun : u < G.n := by
        by_contra hge
        rw [nbrs_eq_nil_of_ge G hgwf (by omega)] at hemp
        exact hemp rfl
      have hmem : (G.nbrs u).headD 0 ∈ G.nbrs u := by
        cases hnb : G.nbrs u with
        | nil => rw [hnb] at hemp; simp at hemp
        | cons a l => simp
      obtain ⟨u1, u2, u3⟩ := uf_union_spec hpwf (show u < n by omega) hv
      exact ⟨u1, u3 G hGn hgwf hgsym hpre
        (Relation.ReflTransGen.single ⟨hun, hmem⟩)⟩
    · rw [if_neg hv]; exact ⟨hpwf, hpre⟩

/-- The sampling phase preserves the union-find invariants for every
interleaving. -/
theorem afforestSample_inv {n : Nat} {G : CSRGraph} (hGn : G.n = n)
    (hgwf : G.wf) (hgsym : G.symmetric) (order : List Nat) :
    ∀ parent, ParentWF n parent → ParentReach G parent →
      ParentWF n (afforestSample n G order parent) ∧
      ParentReach G (afforestSample n G order parent) := by
  induction order with
  | nil => exact fun parent hpwf hpre => ⟨hpwf, hpre⟩
  | cons u rest ih =>
    intro parent hpwf hpre
    have hstep : afforestSample n G (u :: rest) parent =
        afforestSample n G rest (sampleStep n G parent u) := rfl
    rw [hstep]
    obtain ⟨s1, s2⟩ := sampleStep_inv hGn hgwf hgsym hpwf hpre u
    exact ih (sampleStep n G parent u) s1 s2

/-- The edge phase preserves the union-find invariants, only coarsens the
root partition, and joins the roots of every processed pair. -/
theorem afforestEdges_inv {n : Nat} {G : CSRGraph} (hGn : G.n = n)
    (hgwf : G.wf) (hgsym : G.symmetric) (pairs : List (Nat × Nat)) :
    ∀ parent, ParentWF n parent → ParentReach G parent →
      (∀ e ∈ pairs, e.1 < n ∧ e.2 < n ∧ G.reach e.1 e.2) →
      ParentWF n (afforestEdges n pairs parent) ∧
      ParentReach G (afforestEdges n pairs parent) ∧
      (∀ u v, u < n → v < n → root parent u = root parent v →
        root (afforestEdges n pairs parent) u =
          root (afforestEdges n pairs parent) v) ∧
      (∀ e ∈ pairs, root (afforestEdges n pairs parent) e.1 =
        root (afforestEdges n pairs parent) e.2) := by
  induction pairs with
  | nil =>
    intro parent hpwf hpre _
    exact ⟨hpwf, hpre, fun u v _ _ h => h,
      fun e he => absurd he (List.not_mem_nil e)⟩
  | cons e rest ih =>
    intro parent hpwf hpre hbd
    obtain ⟨he1, he2, he3⟩ := hbd e (List.mem_cons_self e rest)
    obtain ⟨u1, u2, u3⟩ := uf_union_spec hpwf he1 he2
    have hstep : afforestEdges n (e :: rest) parent =
        afforestEdges n rest (uf_union n parent e.1 e.2) := rfl
    rw [hstep]
    have hre' : ParentReach G (uf_union n parent e.1 e.2) :=
      u3 G hGn hgwf hgsym hpre he3
    obtain ⟨r1, r2, r3, r4⟩ := ih (uf_union n parent e.1 e.2) u1 hre'
      (fun e' he' => hbd e' (List.mem_cons_of_mem e he'))
    have hmono : ∀ u v, u < n → v < n → root parent u = root parent v →
        root (uf_union n parent e.1 e.2) u =
          root (uf_union n parent e.1 e.2) v := by
      intro u v hu hv heq
      rw [u2 u hu, u2 v hv, heq]
    refine ⟨r1, r2, ?_, ?_⟩
    · intro u v hu hv heq
      exact r3 u v hu hv (hmono u v hu hv heq)
    · intro e' he'
      rcases List.mem_cons.mp he' with hee | he''
      · rw [hee]
        apply r3 e.1 e.2 he1 he2
        rw [u2 e.1 he1, u2 e.2 he2]
        by_cases hne : root parent e.1 = root parent e.2
        · rw [if_neg (fun h => h.2 hne), if_neg (fun h => h.2 hne), hne]
        · rcases Nat.lt_or_ge (root parent e.1) (root parent e.2) with hlt | hge
          · rw [Nat.max_eq_right (by omega), Nat.min_eq_left (by omega),
              if_neg (fun h => absurd h.1 (Nat.ne_of_lt hlt)),
              if_pos ⟨rfl, hne⟩]
          · rw [Nat.max_eq_left (by omega), Nat.min_eq_right (by omega),
              if_pos ⟨rfl, hne⟩, if_neg (fun h => hne h.1.symm)]
      · exact r4 e' he''

/-- After the edge phase has processed some permutation of the full edge
work list, canonical roots are constant on connected components. -/
theorem afforest_edge_complete {G : CSRGraph} (hgwf : G.wf) (hgsym : G.symmetric)
    {o3 : List (Nat × Nat)} (h3 : o3.Perm (afforestEdgePairs G))
    {parent : List Nat} (hpwf : ParentWF G.n parent)
    (hpre : ParentReach G parent) :
    ParentWF G.n (afforestEdges G.n o3 parent) ∧
    ParentReach G (afforestEdges G.n o3 parent) ∧
    (∀ u w, u < G.n → G.reach u w →
      root (afforestEdges G.n o3 parent) u =
        root (afforestEdges G.n o3 parent) w) := by
  have hpairs : ∀ e ∈ o3, e.1 < G.n ∧ e.2 < G.n ∧ G.reach e.1 e.2 := by
    intro e he
    have he' : e ∈ afforestEdgePairs G := h3.mem_iff.mp he
    obtain ⟨u, hu, hmem⟩ := List.mem_flatMap.mp he'
    obtain ⟨v, hvf, hev⟩ := List.mem_map.mp hmem
    obtain ⟨hvnb, _⟩ := List.mem_filter.mp hvf
    have hun : u < G.n := List.mem_range.mp hu
    have hvn : v < G.n := nbrs_lt hgwf hvnb
    rw [← hev]
    exact ⟨hun, hvn, Relation.ReflTransGen.single ⟨hun, hvnb⟩⟩
  obtain ⟨r1, r2, r3, r4⟩ :=
    afforestEdges_inv rfl hgwf hgsym o3 parent hpwf hpre hpairs
  refine ⟨r1, r2, ?_⟩
  have hedge : ∀ u, u < G.n → ∀ v ∈ G.nbrs u,
      root (afforestEdges G.n o3 parent) u =
        root (afforestEdges G.n o3 parent) v := by
    intro u hun v hvnb
    have hvn : v < G.n := nbrs_lt hgwf hvnb
    rcases Nat.lt_trichotomy u v with hlt | heq | hgt
    · have hp : (u, v) ∈ afforestEdgePairs G :=
        List.mem_flatMap.mpr ⟨u, List.mem_range.mpr hun, List.mem_map.mpr
          ⟨v, List.mem_filter.mpr ⟨hvnb, by simpa using hlt⟩, rfl⟩⟩
      exact r4 (u, v) (h3.mem_iff.mpr hp)
    · rw [heq]
    · have hunb : u ∈ G.nbrs v := hgsym u hun v hvnb
      have hp : (v, u) ∈ afforestEdgePairs G :=
        List.mem_flatMap.mpr ⟨v, List.mem_range.mpr hvn, List.mem_map.mpr
          ⟨u, List.mem_filter.mpr ⟨hunb, by simpa using hgt⟩, rfl⟩⟩
      exact (r4 (v, u) (h3.mem_iff.mpr hp)).symm
  intro u w hun hreach
  induction hreach with
  | refl => rfl
  | tail hr hadj ih =>
    rename_i b c
    have hbn : b < G.n := reach_lt hgwf hun hr
    rw [ih, hedge b hbn c hadj.2]

/-- **C9**: for every symmetric well-formed CSR graph, the Afforest
union-find kernel `compute_connected_components_pthreads_afforest`
terminates with `labels[v]` equal to the minimum vertex id of `v`'s
connected component for every vertex `v` — the same output convention as
the LP kernels, so its output (as `int32_t` labels) coincides with the
sequential `compute_connected_components` — because `uf_union` always
hooks the root with the larger id under the root with the smaller id, so
canonical roots never exceed their class and end up at the class minimum.
The kernel is modelled at union/find atomicity; `o1, o2, o3, o4` are the
interleaved orders in which the four barrier-separated phases of any
`num_threads ≥ 1` schedule execute their work items. -/
theorem c9_afforest_min_labels (G : CSRGraph) (hwf : G.wf) (hsym : G.symmetric)
    (o1 o2 : List Nat) (o3 : List (Nat × Nat)) (o4 : List Nat)
    (_h1 : o1.Perm (List.range G.n)) (h2 : o2.Perm (List.range G.n))
    (h3 : o3.Perm (afforestEdgePairs G)) (h4 : o4.Perm (List.range G.n)) :
    ∀ v, v < G.n →
      IsLeast {w | G.reach v w}
        ((compute_connected_components_pthreads_afforest G o1 o2 o3 o4).getD v 0) ∧
      (((compute_connected_components_pthreads_afforest G o1 o2 o3 o4).getD v 0 :
          Int) = (compute_connected_components G).getD v 0) := by
  have hP0wf : ParentWF G.n (List.range G.n) := by
    refine ⟨List.length_range _, ?_⟩
    intro v hv
    rw [List.getD_eq_getElem _ _ (by simpa using hv), List.getElem_range]
  have hP0re : ParentReach G (List.range G.n) := by
    intro v hv
    rw [List.getD_eq_getElem _ _ (by simpa using hv), List.getElem_range]
    exact Relation.ReflTransGen.refl
  obtain ⟨hP1wf, hP1re⟩ :=
    afforestSample_inv rfl hwf hsym o1 (List.range G.n) hP0wf hP0re
  have h2bd : ∀ i ∈ o2, i < G.n := fun i hi =>
    List.mem_range.mp (h2.mem_iff.mp hi)
  obtain ⟨hP2wf, _, hP2reach, _, _⟩ :=
    uf_compress_spec o2 (afforestSample G.n G o1 (List.range G.n)) hP1wf h2bd
  have hP2re := hP2reach G rfl hP1re
  obtain ⟨hP3wf, hP3re, hcomp⟩ :=
    afforest_edge_complete hwf hsym h3 hP2wf hP2re
  have h4bd : ∀ i ∈ o4, i < G.n := fun i hi =>
    List.mem_range.mp (h4.mem_iff.mp hi)
  obtain ⟨hP4wf, _, _, _, hP4proc⟩ :=
    uf_compress_spec o4
      (afforestEdges G.n o3
        (uf_compress G.n o2 (afforestSample G.n G o1 (List.range G.n))))
      hP3wf h4bd
  intro v hv
  have hLdef : compute_connected_components_pthreads_afforest G o1 o2 o3 o4 =
      uf_compress G.n o4
        (afforestEdges G.n o3
          (uf_compress G.n o2
            (afforestSample G.n G o1 (List.range G.n)))) := rfl
  rw [hLdef, hP4proc v (h4.mem_iff.mpr (List.mem_range.mpr hv))]
  have hIsL : IsLeast {w | G.reach v w}
      (root (afforestEdges G.n o3
        (uf_compress G.n o2 (afforestSample G.n G o1 (List.range G.n)))) v) := by
    constructor
    · exact root_reach hP3wf hP3re v hv
    · intro w hw
      rw [hcomp v w hv hw]
      exact root_le hP3wf w (reach_lt hwf hv hw)
  refine ⟨hIsL, ?_⟩
  have hseq := compute_cc_isLeast hwf hsym v hv
  have huniq := hIsL.unique hseq
  obtain ⟨_, hnn, _, _⟩ := (compute_cc_inv hwf hsym).1
  rw [huniq, Int.toNat_of_nonneg (hnn.getD v)]

/-- Witness for C9: the 4-vertex graph with edges `{0,1}` and `{2,3}`,
single-thread orders for all four phases. -/
theorem c9_afforest_min_labels_witness :
    exGraphTwoPairs.wf ∧ 0 < exGraphTwoPairs.n ∧
    (IsLeast {w | exGraphTwoPairs.reach 0 w}
      ((compute_connected_components_pthreads_afforest exGraphTwoPairs
        [0, 1, 2, 3] [0, 1, 2, 3] (afforestEdgePairs exGraphTwoPairs)
        [0, 1, 2, 3]).getD 0 0) ∧
     (((compute_connected_components_pthreads_afforest exGraphTwoPairs
        [0, 1, 2, 3] [0, 1, 2, 3] (afforestEdgePairs exGraphTwoPairs)
        [0, 1, 2, 3]).getD 0 0 : Int) =
       (compute_connected_components exGraphTwoPairs).getD 0 0)) :=
  ⟨by decide, by decide,
    c9_afforest_min_labels exGraphTwoPairs (by decide) (by decide)
      [0, 1, 2, 3] [0, 1, 2, 3] (afforestEdgePairs exGraphTwoPairs)
      [0, 1, 2, 3] (by decide) (by decide) (by decide) (by decide) 0 (by decide)⟩

end CC
